import Mathlib

/-!
Verification of the `lockfree` ring-buffer family (Go).

This file shallowly embeds the four queue variants of the repository
(`spsc.go`, `bspsc.go`, `dspsc.go`, `mpmc.go`) and proves or refutes the
frozen claims about them.

Modelling conventions
=====================

* Payloads (`interface{}` in Go) are `Option α`: `none` is Go's `nil`.
* The monotone 64-bit counters (`write`, `read`, `writeCache`, `readCache`
  and the per-slot sequence numbers) are modelled as unbounded naturals,
  following the spec's data model ("counters are unbounded monotonic
  64-bit values; their arithmetic difference decides fullness/emptiness").
  A counter advances by at most one per operation, so its `uint64`
  wraparound is out of reach of any run shorter than 2^64 operations and
  is not modelled.
* Construction-time arithmetic (`roundUp`, `mask = size - 1`) and the MPMC
  sequence difference `dif := seq - pos` are computed exactly as the Go
  `uint64` machine does, with explicit wrapping via `% 2^64` (`wsub`):
  there the wraparound is observable on ordinary inputs and is the whole
  point of several claims.
* Each exported operation is modelled as a pure function on the ring state
  returning an outcome and the successor state.  The Go operations are
  retry loops; in the single-call (interference-free) semantics an
  iteration that makes no progress leaves the state unchanged (except for
  BSPSC's one-shot counter publications, which are modelled), so a loop
  either acts on its first iteration or spins.  Outcomes:
  - `accepted` / `got a`: the item was enqueued / dequeued;
  - `full`: `offer` observed no free slot and returned `false`;
  - `timedOut`: the timeout check fired (`timeout > 0` and the deadline
    passed, abstracted by the oracle flag `expired`);
  - `blocked`: the call would keep spinning (blocking `Put`/`Get`, or a
    `Poll` whose deadline has not yet passed);
  - `closed`: the dispose flag was observed;
  - `oob`: the Go slice access `rb.nodes[i]` was out of bounds (a Go
    runtime fault);
  - `panicked`: the explicit `panic` statement in `mpmc.go` was reached.
* `time.Duration` is `Int`; a `Poll` call also receives the oracle
  `expired : Bool` meaning "`time.Since(start) >= timeout` held when the
  timeout was checked" (the start is taken once per call in the source,
  so a single flag is faithful).
-/

/-- Modulus of Go's `uint64` arithmetic. -/
def u64 : Nat := 2 ^ 64

/-- Go `uint64` subtraction `a - b` (wrapping), on the machine values
`a % 2^64` and `b % 2^64`. -/
def wsub (a b : Nat) : Nat := (a % u64 + (u64 - b % u64)) % u64

/-- The function `roundUp` (identical copies in `spsc.go`, `bspsc.go`,
`dspsc.go`, `mpmc.go`): bit-smearing round-up to the next power of two,
on `uint64`.  All shifts, ors, the decrement and the increment are the Go
machine operations. -/
def roundUp (v : Nat) : Nat :=
  let v := wsub v 1
  let v := v ||| (v >>> 1)
  let v := v ||| (v >>> 2)
  let v := v ||| (v >>> 4)
  let v := v ||| (v >>> 8)
  let v := v ||| (v >>> 16)
  let v := v ||| (v >>> 32)
  (v + 1) % u64

/-- Outcome of `put` (shared by `Put`, with `offer = false`, and `Offer`,
with `offer = true`). -/
inductive PutOut where
  | accepted
  | full
  | blocked
  | closed
  | oob
  | panicked
deriving DecidableEq, Repr

/-- Outcome of `Poll` (and `Get`, which is `Poll 0`). -/
inductive PollOut (α : Type) where
  | got (a : Option α)
  | timedOut
  | blocked
  | closed
  | oob
  | panicked
deriving DecidableEq, Repr

/-- A single queue operation, used to build arbitrary sequential histories
of API calls against a ring. -/
inductive Op (α : Type) where
  | put (a : Option α)
  | offer (a : Option α)
  | poll (t : Int) (e : Bool)
  | get
  | dispose
deriving DecidableEq, Repr

namespace Spsc

/-- Slot of `spsc.go`: `type node struct { position uint64; data interface{} }`. -/
structure node (α : Type) where
  position : Nat
  data : Option α
deriving DecidableEq, Repr

/-- The `spsc.RingBuffer` struct (padding fields are layout-only and
omitted): shared `write` (owned by the producer), shared `read` (owned by
the consumer), `mask`, `disposed` and the slot array. -/
structure RingBuffer (α : Type) where
  write : Nat
  read : Nat
  mask : Nat
  disposed : Nat
  nodes : List (node α)
deriving DecidableEq, Repr

/-- The method `init`: rounds the size up, allocates the slots with
`position = i`, and sets `mask = size - 1` (a `uint64` subtraction). -/
def init (size : Nat) : RingBuffer α :=
  let size := roundUp size
  { write := 0, read := 0, mask := wsub size 1, disposed := 0,
    nodes := (List.range size).map fun i => { position := i, data := none } }

/-- The constructor `NewRingBuffer`. -/
def NewRingBuffer (size : Nat) : RingBuffer α := init size

/-- The method `Cap`: length of the slot array. -/
def Cap (rb : RingBuffer α) : Nat := rb.nodes.length

/-- The method `Dispose`: `CompareAndSwapUint64(&rb.disposed, 0, 1)`. -/
def Dispose (rb : RingBuffer α) : RingBuffer α :=
  if rb.disposed = 0 then { rb with disposed := 1 } else rb

/-- The method `IsDisposed`. -/
def IsDisposed (rb : RingBuffer α) : Bool := rb.disposed = 1

/-- The private method `put` of `spsc.go`.  Loop structure: load `write`;
each iteration checks `disposed`, loads `read`, breaks when
`wr < rd + Cap()`; otherwise `Offer` returns `false` and `Put` yields and
retries (spinning forever in the interference-free semantics).  After the
break the item is stored in `nodes[wr & mask]` and `write = wr + 1` is
published. -/
def put (rb : RingBuffer α) (item : Option α) (offer : Bool) :
    PutOut × RingBuffer α :=
  let wr := rb.write
  if rb.disposed > 0 then (.closed, rb)
  else
    let rd := rb.read
    if wr < rd + Cap rb then
      match rb.nodes.get? (wr &&& rb.mask) with
      | none => (.oob, rb)
      | some n =>
        (.accepted,
          { rb with
            nodes := rb.nodes.set (wr &&& rb.mask) { n with data := item },
            write := wr + 1 })
    else if offer then (.full, rb)
    else (.blocked, rb)

/-- The method `Put`. -/
def Put (rb : RingBuffer α) (item : Option α) : PutOut × RingBuffer α :=
  put rb item false

/-- The method `Offer`. -/
def Offer (rb : RingBuffer α) (item : Option α) : PutOut × RingBuffer α :=
  put rb item true

/-- The method `Poll` of `spsc.go`.  Loop structure: load `read`; each
iteration checks `disposed`, loads `write`, breaks when `rd != wr`,
returns `timedOut` when `timeout > 0` and the deadline passed, else
yields.  After the break the slot's data is read, the slot is cleared
(`n.data = nil`) and `read = rd + 1` is published. -/
def Poll (rb : RingBuffer α) (timeout : Int) (expired : Bool) :
    PollOut α × RingBuffer α :=
  let rd := rb.read
  if rb.disposed > 0 then (.closed, rb)
  else
    let wr := rb.write
    if rd ≠ wr then
      match rb.nodes.get? (rd &&& rb.mask) with
      | none => (.oob, rb)
      | some n =>
        (.got n.data,
          { rb with
            nodes := rb.nodes.set (rd &&& rb.mask) { n with data := none },
            read := rd + 1 })
    else if 0 < timeout ∧ expired then (.timedOut, rb)
    else (.blocked, rb)

/-- The method `Get`: `Poll(0)` (a non-positive timeout never expires). -/
def Get (rb : RingBuffer α) : PollOut α × RingBuffer α := Poll rb 0 false

/-- Interpret one API call against the ring (result discarded). -/
def step (rb : RingBuffer α) : Op α → RingBuffer α
  | .put a => (put rb a false).2
  | .offer a => (put rb a true).2
  | .poll t e => (Poll rb t e).2
  | .get => (Get rb).2
  | .dispose => Dispose rb

/-- State after running a history of API calls on a fresh ring. -/
def run (size : Nat) (ops : List (Op α)) : RingBuffer α :=
  ops.foldl step (NewRingBuffer size)

end Spsc

namespace Bspsc

/-- Default batch threshold of `bspsc.go`: `(1 << 8) - 1 = 255`. -/
def defaultMaxBatch : Nat := (1 <<< 8) - 1

/-- Slot of `bspsc.go` (same shape as `spsc.go`). -/
structure node (α : Type) where
  position : Nat
  data : Option α
deriving DecidableEq, Repr

/-- The `bspsc.RingBuffer` struct: producer-private `writeCache`, shared
`write`, shared `read`, consumer-private `readCache`, `mask`, `disposed`,
`maxbatch` and the slot array. -/
structure RingBuffer (α : Type) where
  writeCache : Nat
  write : Nat
  read : Nat
  readCache : Nat
  mask : Nat
  disposed : Nat
  maxbatch : Nat
  nodes : List (node α)
deriving DecidableEq, Repr

/-- The method `init` of `bspsc.go`. -/
def init (size : Nat) : RingBuffer α :=
  let size := roundUp size
  { writeCache := 0, write := 0, read := 0, readCache := 0,
    mask := wsub size 1, disposed := 0, maxbatch := defaultMaxBatch,
    nodes := (List.range size).map fun i => { position := i, data := none } }

/-- The constructor `NewRingBuffer`. -/
def NewRingBuffer (size : Nat) : RingBuffer α := init size

/-- The method `Cap`. -/
def Cap (rb : RingBuffer α) : Nat := rb.nodes.length

/-- The method `Dispose`. -/
def Dispose (rb : RingBuffer α) : RingBuffer α :=
  if rb.disposed = 0 then { rb with disposed := 1 } else rb

/-- The method `IsDisposed`. -/
def IsDisposed (rb : RingBuffer α) : Bool := rb.disposed = 1

/-- The private method `put` of `bspsc.go`.  Loop: load `writeCache`;
check `disposed`; load shared `read`; break when `wr < rd + Cap()`.
When apparently full the producer first publishes its private counter
(`if wr > rb.write { rb.write = wr }`, a one-shot side effect), then
`Offer` returns `false` / `Put` spins.  On the success path the item is
stored, `writeCache` is incremented (the source's self-store
`StoreUint64(&rb.writeCache, rb.writeCache)` re-stores the same value and
is a no-op), and `write` is published only when the unpublished batch
`writeCache - write` (a `uint64` difference; `writeCache >= write` in
every reachable state) reaches `maxbatch`. -/
def put (rb : RingBuffer α) (item : Option α) (offer : Bool) :
    PutOut × RingBuffer α :=
  let wr := rb.writeCache
  if rb.disposed > 0 then (.closed, rb)
  else
    let rd := rb.read
    if wr < rd + Cap rb then
      match rb.nodes.get? (wr &&& rb.mask) with
      | none => (.oob, rb)
      | some n =>
        let nodes := rb.nodes.set (wr &&& rb.mask) { n with data := item }
        let wc := wr + 1
        let write := if wc - rb.write ≥ rb.maxbatch then wc else rb.write
        (.accepted, { rb with nodes := nodes, writeCache := wc, write := write })
    else
      let rb := if wr > rb.write then { rb with write := wr } else rb
      if offer then (.full, rb) else (.blocked, rb)

/-- The method `Put`. -/
def Put (rb : RingBuffer α) (item : Option α) : PutOut × RingBuffer α :=
  put rb item false

/-- The method `Offer`. -/
def Offer (rb : RingBuffer α) (item : Option α) : PutOut × RingBuffer α :=
  put rb item true

/-- The method `Poll` of `bspsc.go`.  Loop: load `readCache`; check
`disposed`; load shared `write`; break when `rd != wr`.  When apparently
empty the consumer first publishes its private counter
(`if rd > rb.read { rb.read = rd }`, a one-shot side effect), then checks
the timeout, else spins.  On the success path the slot is read and
cleared, `readCache` is incremented, and `read` is published only when
the unpublished batch reaches `maxbatch`. -/
def Poll (rb : RingBuffer α) (timeout : Int) (expired : Bool) :
    PollOut α × RingBuffer α :=
  let rd := rb.readCache
  if rb.disposed > 0 then (.closed, rb)
  else
    let wr := rb.write
    if rd ≠ wr then
      match rb.nodes.get? (rd &&& rb.mask) with
      | none => (.oob, rb)
      | some n =>
        let nodes := rb.nodes.set (rd &&& rb.mask) { n with data := none }
        let rc := rd + 1
        let read := if rc - rb.read ≥ rb.maxbatch then rc else rb.read
        (.got n.data, { rb with nodes := nodes, readCache := rc, read := read })
    else
      let rb := if rd > rb.read then { rb with read := rd } else rb
      if 0 < timeout ∧ expired then (.timedOut, rb)
      else (.blocked, rb)

/-- The method `Get`: `Poll(0)`. -/
def Get (rb : RingBuffer α) : PollOut α × RingBuffer α := Poll rb 0 false

/-- Interpret one API call against the ring (result discarded). -/
def step (rb : RingBuffer α) : Op α → RingBuffer α
  | .put a => (put rb a false).2
  | .offer a => (put rb a true).2
  | .poll t e => (Poll rb t e).2
  | .get => (Get rb).2
  | .dispose => Dispose rb

/-- State after running a history of API calls on a fresh ring. -/
def run (size : Nat) (ops : List (Op α)) : RingBuffer α :=
  ops.foldl step (NewRingBuffer size)

end Bspsc

namespace Dspsc

/-- Slot of `dspsc.go`: `ready uint64` (1 if published) and the payload.
`make(nodes, size)` zero-initialises: `ready = 0`, `data = nil`. -/
structure node (α : Type) where
  ready : Nat
  data : Option α
deriving DecidableEq, Repr

/-- The `dspsc.RingBuffer` struct: producer-private `write`,
consumer-private `read`, `mask`, `disposed` and the slot array. -/
structure RingBuffer (α : Type) where
  write : Nat
  read : Nat
  mask : Nat
  disposed : Nat
  nodes : List (node α)
deriving DecidableEq, Repr

/-- The method `init` of `dspsc.go`: unlike the other variants it does not
initialise slot positions; the slots are the zero value. -/
def init (size : Nat) : RingBuffer α :=
  let size := roundUp size
  { write := 0, read := 0, mask := wsub size 1, disposed := 0,
    nodes := List.replicate size { ready := 0, data := none } }

/-- The constructor `NewRingBuffer`. -/
def NewRingBuffer (size : Nat) : RingBuffer α := init size

/-- The method `Cap`. -/
def Cap (rb : RingBuffer α) : Nat := rb.nodes.length

/-- The method `Dispose`. -/
def Dispose (rb : RingBuffer α) : RingBuffer α :=
  if rb.disposed = 0 then { rb with disposed := 1 } else rb

/-- The method `IsDisposed`. -/
def IsDisposed (rb : RingBuffer α) : Bool := rb.disposed = 1

/-- The private method `put` of `dspsc.go`.  The slot pointer
`n := &rb.nodes[rb.write & rb.mask]` is taken at function entry, before
the retry loop and in particular before the `disposed` check, so an
out-of-range index faults even on a disposed ring.  Loop: check
`disposed`; if `n.ready == 0` advance `write` and break; else `Offer`
returns `false` / `Put` spins.  After the break: store the payload and
publish `ready = 1`. -/
def put (rb : RingBuffer α) (item : Option α) (offer : Bool) :
    PutOut × RingBuffer α :=
  match rb.nodes.get? (rb.write &&& rb.mask) with
  | none => (.oob, rb)
  | some n =>
    if rb.disposed = 1 then (.closed, rb)
    else if n.ready = 0 then
      (.accepted,
        { rb with
          nodes := rb.nodes.set (rb.write &&& rb.mask)
            { ready := 1, data := item },
          write := rb.write + 1 })
    else if offer then (.full, rb)
    else (.blocked, rb)

/-- The method `Put`. -/
def Put (rb : RingBuffer α) (item : Option α) : PutOut × RingBuffer α :=
  put rb item false

/-- The method `Offer`. -/
def Offer (rb : RingBuffer α) (item : Option α) : PutOut × RingBuffer α :=
  put rb item true

/-- The method `Poll` of `dspsc.go`.  The slot pointer is taken at
function entry (before the `disposed` check).  Loop: check `disposed`; if
`n.ready == 1` advance `read` and break; else timeout check, else spin.
After the break: read the payload and publish `ready = 0`.  The payload
reference itself is left in the slot (no `n.data = nil`). -/
def Poll (rb : RingBuffer α) (timeout : Int) (expired : Bool) :
    PollOut α × RingBuffer α :=
  match rb.nodes.get? (rb.read &&& rb.mask) with
  | none => (.oob, rb)
  | some n =>
    if rb.disposed = 1 then (.closed, rb)
    else if n.ready = 1 then
      (.got n.data,
        { rb with
          nodes := rb.nodes.set (rb.read &&& rb.mask) { n with ready := 0 },
          read := rb.read + 1 })
    else if 0 < timeout ∧ expired then (.timedOut, rb)
    else (.blocked, rb)

/-- The method `Get`: `Poll(0)`. -/
def Get (rb : RingBuffer α) : PollOut α × RingBuffer α := Poll rb 0 false

/-- Interpret one API call against the ring (result discarded). -/
def step (rb : RingBuffer α) : Op α → RingBuffer α
  | .put a => (put rb a false).2
  | .offer a => (put rb a true).2
  | .poll t e => (Poll rb t e).2
  | .get => (Get rb).2
  | .dispose => Dispose rb

/-- State after running a history of API calls on a fresh ring. -/
def run (size : Nat) (ops : List (Op α)) : RingBuffer α :=
  ops.foldl step (NewRingBuffer size)

end Dspsc

namespace Mpmc

/-- `minSize = 2` of `mpmc.go`: size 1 is invalid because a slot's
position uses index+1 as the data-ready flag. -/
def minSize : Nat := 2

/-- Slot of `mpmc.go`: shared sequence number `position` and the payload. -/
structure node (α : Type) where
  position : Nat
  data : Option α
deriving DecidableEq, Repr

/-- The `mpmc.RingBuffer` struct (Vyukov bounded queue): `write` shared
among producers, `read` shared among consumers, `mask`, `disposed`, slots. -/
structure RingBuffer (α : Type) where
  write : Nat
  read : Nat
  mask : Nat
  disposed : Nat
  nodes : List (node α)
deriving DecidableEq, Repr

/-- The method `init` of `mpmc.go` (slot `i` starts with sequence `i`). -/
def init (size : Nat) : RingBuffer α :=
  let size := roundUp size
  { write := 0, read := 0, mask := wsub size 1, disposed := 0,
    nodes := (List.range size).map fun i => { position := i, data := none } }

/-- The constructor `NewRingBuffer`: enforces the minimum size 2, then
rounds up. -/
def NewRingBuffer (size : Nat) : RingBuffer α :=
  init (if size < minSize then minSize else size)

/-- The method `Cap`. -/
def Cap (rb : RingBuffer α) : Nat := rb.nodes.length

/-- The method `Dispose`. -/
def Dispose (rb : RingBuffer α) : RingBuffer α :=
  if rb.disposed = 0 then { rb with disposed := 1 } else rb

/-- The method `IsDisposed`. -/
def IsDisposed (rb : RingBuffer α) : Bool := rb.disposed = 1

/-- The private method `put` of `mpmc.go`.  One attempt at position
`pos = load(write)`: check `disposed`; load the slot and its sequence
number; compute `dif := seq - pos` — a Go `uint64` subtraction, modelled
by `wsub`, so `dif` is never negative and the source's `case dif < 0`
(the `panic`) is unreachable; on `dif == 0` the CAS `write: pos -> pos+1`
succeeds (in the interference-free semantics nothing changed `write`
since it was loaded), the payload is stored and `position = pos + 1` is
published.  Any other `dif` (including a stale sequence `seq < pos`,
which wraps to a large positive `dif`) reloads `write` and retries:
`Offer` then returns `false`, `Put` spins. -/
def put (rb : RingBuffer α) (item : Option α) (offer : Bool) :
    PutOut × RingBuffer α :=
  let pos := rb.write
  if rb.disposed = 1 then (.closed, rb)
  else
    match rb.nodes.get? (pos &&& rb.mask) with
    | none => (.oob, rb)
    | some n =>
      let seq := n.position
      let dif := wsub seq pos
      if dif = 0 then
        (.accepted,
          { rb with
            nodes := rb.nodes.set (pos &&& rb.mask)
              { position := pos + 1, data := item },
            write := pos + 1 })
      else if dif < 0 then (.panicked, rb)
      else if offer then (.full, rb)
      else (.blocked, rb)

/-- The method `Put`. -/
def Put (rb : RingBuffer α) (item : Option α) : PutOut × RingBuffer α :=
  put rb item false

/-- The method `Offer` (documented in the source as not guaranteeing
fullness when producers race). -/
def Offer (rb : RingBuffer α) (item : Option α) : PutOut × RingBuffer α :=
  put rb item true

/-- The method `Poll` of `mpmc.go`.  One attempt at position
`pos = load(read)`: check `disposed`; load the slot; compute
`dif := seq - (pos + 1)` (`uint64`, never negative, so the `panic` branch
is dead); on `dif == 0` the CAS `read: pos -> pos+1` succeeds, the
payload is read (the slot's data is NOT cleared) and
`position = pos + mask + 1` is published.  Any other `dif` reloads `read`
and retries; the timeout is checked at the bottom of each iteration. -/
def Poll (rb : RingBuffer α) (timeout : Int) (expired : Bool) :
    PollOut α × RingBuffer α :=
  let pos := rb.read
  if rb.disposed = 1 then (.closed, rb)
  else
    match rb.nodes.get? (pos &&& rb.mask) with
    | none => (.oob, rb)
    | some n =>
      let seq := n.position
      let dif := wsub seq (pos + 1)
      if dif = 0 then
        (.got n.data,
          { rb with
            nodes := rb.nodes.set (pos &&& rb.mask)
              { n with position := pos + rb.mask + 1 },
            read := pos + 1 })
      else if dif < 0 then (.panicked, rb)
      else if 0 < timeout ∧ expired then (.timedOut, rb)
      else (.blocked, rb)

/-- The method `Get`: `Poll(0)`. -/
def Get (rb : RingBuffer α) : PollOut α × RingBuffer α := Poll rb 0 false

/-- Interpret one API call against the ring (result discarded). -/
def step (rb : RingBuffer α) : Op α → RingBuffer α
  | .put a => (put rb a false).2
  | .offer a => (put rb a true).2
  | .poll t e => (Poll rb t e).2
  | .get => (Get rb).2
  | .dispose => Dispose rb

/-- State after running a history of API calls on a fresh ring. -/
def run (size : Nat) (ops : List (Op α)) : RingBuffer α :=
  ops.foldl step (NewRingBuffer size)

end Mpmc

/-!
Specification-side definitions used to state the claims, and the
invariants carried through run-based proofs.
-/

/-- One `x |= x >> m` smearing step of `roundUp` (named for the proofs;
`roundUp` unfolds to six applications of it). -/
def smearStep (x m : Nat) : Nat := x ||| (x >>> m)

/-- Coverage predicate for the smear: bit `i` of `x` is set exactly when
some bit of `w` in the window `[i, i + m)` is set. -/
def covers (w m x : Nat) : Prop :=
  ∀ i, x.testBit i = true ↔ ∃ j, j < m ∧ w.testBit (i + j) = true

/-- `c` is the least power of two that is at least `n` (the capacity the
spec promises for a construction argument `n`). -/
def IsLeastPow2Ge (n c : Nat) : Prop :=
  (∃ k, c = 2 ^ k) ∧ n ≤ c ∧ ∀ j, n ≤ 2 ^ j → c ≤ 2 ^ j

namespace Spsc

/-- Invariant of every reachable SPSC ring: either the degenerate
size-0 ring (empty slot array, counters pinned at 0), or a power-of-two
ring whose counters satisfy `read <= write <= read + capacity`. -/
def Inv (rb : RingBuffer α) : Prop :=
  (rb.nodes = [] ∧ rb.read = 0 ∧ rb.write = 0) ∨
  (∃ k, k ≤ 63 ∧ rb.nodes.length = 2 ^ k ∧ rb.mask = 2 ^ k - 1 ∧
    rb.read ≤ rb.write ∧ rb.write ≤ rb.read + 2 ^ k)

/-- Payload stored at ring position `p` (slot `p & mask`). -/
def slotData (rb : RingBuffer α) (p : Nat) : Option α :=
  (rb.nodes.get? (p &&& rb.mask)).bind fun n => n.data

/-- Representation relation for the FIFO abstraction: the ring holds
exactly the queue `cs`, oldest first, in positions `read .. write - 1`. -/
def Rep (rb : RingBuffer α) (cs : List α) : Prop :=
  (∃ k, k ≤ 63 ∧ rb.nodes.length = 2 ^ k ∧ rb.mask = 2 ^ k - 1) ∧
  rb.disposed = 0 ∧
  rb.write = rb.read + cs.length ∧
  cs.length ≤ rb.nodes.length ∧
  ∀ j, j < cs.length → slotData rb (rb.read + j) = cs.get? j

/-- Run a list of blocking `Put`s; `none` as soon as one is not accepted. -/
def fill (rb : RingBuffer α) : List α → Option (RingBuffer α)
  | [] => some rb
  | x :: xs =>
    match put rb (some x) false with
    | (.accepted, rb') => fill rb' xs
    | _ => none

/-- Run `k` blocking `Get`s, collecting the outcomes in order. -/
def drainN (rb : RingBuffer α) : Nat → List (PollOut α)
  | 0 => []
  | k + 1 =>
    let p := Get rb
    p.1 :: drainN p.2 k

end Spsc

namespace Dspsc

/-- Invariant of every reachable DSPSC ring: either the degenerate ring
(empty slot array — every operation faults on entry, so the counters stay
0), or a power-of-two ring where `read <= write <= read + capacity` and a
slot's `ready` flag is set exactly when its index is the residue of an
unconsumed position in `[read, write)`. -/
def Inv (rb : RingBuffer α) : Prop :=
  (rb.nodes = [] ∧ rb.read = 0 ∧ rb.write = 0) ∨
  (∃ k, k ≤ 63 ∧ rb.nodes.length = 2 ^ k ∧ rb.mask = 2 ^ k - 1 ∧
    rb.read ≤ rb.write ∧ rb.write ≤ rb.read + 2 ^ k ∧
    ∀ i (h : i < rb.nodes.length),
      (rb.nodes[i].ready = 0 ∨ rb.nodes[i].ready = 1) ∧
      (rb.nodes[i].ready = 1 ↔ ∃ p, rb.read ≤ p ∧ p < rb.write ∧ p % 2 ^ k = i))

/-- Payload stored at ring position `p` (slot `p & mask`). -/
def slotData (rb : RingBuffer α) (p : Nat) : Option α :=
  (rb.nodes.get? (p &&& rb.mask)).bind fun n => n.data

/-- Representation relation for the FIFO abstraction of DSPSC. -/
def Rep (rb : RingBuffer α) (cs : List α) : Prop :=
  Inv rb ∧ rb.disposed = 0 ∧ rb.nodes ≠ [] ∧
  rb.write = rb.read + cs.length ∧
  cs.length ≤ rb.nodes.length ∧
  ∀ j, j < cs.length → slotData rb (rb.read + j) = cs.get? j

/-- Run a list of blocking `Put`s; `none` as soon as one is not accepted. -/
def fill (rb : RingBuffer α) : List α → Option (RingBuffer α)
  | [] => some rb
  | x :: xs =>
    match put rb (some x) false with
    | (.accepted, rb') => fill rb' xs
    | _ => none

/-- Run `k` blocking `Get`s, collecting the outcomes in order. -/
def drainN (rb : RingBuffer α) : Nat → List (PollOut α)
  | 0 => []
  | k + 1 =>
    let p := Get rb
    p.1 :: drainN p.2 k

end Dspsc

namespace Bspsc

/-- Invariant of every reachable BSPSC ring: the published counters trail
the private ones and the private occupancy is bounded by the capacity:
`read <= readCache <= write <= writeCache <= read + capacity`. -/
def Inv (rb : RingBuffer α) : Prop :=
  rb.read ≤ rb.readCache ∧ rb.readCache ≤ rb.write ∧
  rb.write ≤ rb.writeCache ∧ rb.writeCache ≤ rb.read + rb.nodes.length

/-- Payload stored at ring position `p` (slot `p & mask`). -/
def slotData (rb : RingBuffer α) (p : Nat) : Option α :=
  (rb.nodes.get? (p &&& rb.mask)).bind fun n => n.data

/-- Run `k` blocking `Get`s, collecting the outcomes in order. -/
def drainN (rb : RingBuffer α) : Nat → List (PollOut α)
  | 0 => []
  | k + 1 =>
    let p := Get rb
    p.1 :: drainN p.2 k

end Bspsc

namespace Mpmc

/-- Invariant of every reachable MPMC ring (Vyukov discipline): either the
degenerate empty-slot-array ring, or a power-of-two ring of capacity at
least 2 where `read <= write <= read + capacity`, positions in
`[read, write)` hold published items (sequence `p + 1`) and positions in
`[write, read + capacity)` are empty for their lap (sequence `p`). -/
def Inv (rb : RingBuffer α) : Prop :=
  (rb.nodes = [] ∧ rb.read = 0 ∧ rb.write = 0) ∨
  (∃ k, 1 ≤ k ∧ k ≤ 63 ∧ rb.nodes.length = 2 ^ k ∧ rb.mask = 2 ^ k - 1 ∧
    rb.read ≤ rb.write ∧ rb.write ≤ rb.read + 2 ^ k ∧
    (∀ p, rb.read ≤ p → p < rb.write →
      ∃ h : p % 2 ^ k < rb.nodes.length,
        rb.nodes[p % 2 ^ k].position = p + 1) ∧
    (∀ p, rb.write ≤ p → p < rb.read + 2 ^ k →
      ∃ h : p % 2 ^ k < rb.nodes.length,
        rb.nodes[p % 2 ^ k].position = p))

/-- Payload stored at ring position `p` (slot `p & mask`). -/
def slotData (rb : RingBuffer α) (p : Nat) : Option α :=
  (rb.nodes.get? (p &&& rb.mask)).bind fun n => n.data

end Mpmc

/-!
Lemmas: wrapping arithmetic and `roundUp` correctness.
-/

theorem u64_pos : 0 < u64 := by decide

theorem u64_eq : u64 = 18446744073709551616 := by decide

theorem wsub_self (a : Nat) : wsub a a = 0 := by
  unfold wsub
  rw [u64_eq]
  omega

theorem wsub_mod_left (a b : Nat) : wsub (a % u64) b = wsub a b := by
  unfold wsub
  rw [Nat.mod_mod_of_dvd _ dvd_rfl]

theorem wsub_one (v : Nat) (h1 : 1 ≤ v) (h2 : v < u64) : wsub v 1 = v - 1 := by
  unfold wsub
  rw [u64_eq] at h2 ⊢
  omega

theorem wsub_eq_zero_iff (a b : Nat) : wsub a b = 0 ↔ a % u64 = b % u64 := by
  unfold wsub
  rw [u64_eq]
  omega

theorem roundUp_unfold (v : Nat) :
    roundUp v =
      (smearStep (smearStep (smearStep (smearStep (smearStep (smearStep
        (wsub v 1) 1) 2) 4) 8) 16) 32 + 1) % u64 := rfl

theorem covers_one (w : Nat) : covers w 1 w := by
  intro i
  constructor
  · intro h
    exact ⟨0, Nat.zero_lt_one, by simpa using h⟩
  · rintro ⟨j, hj, h⟩
    have : j = 0 := by omega
    subst this
    simpa using h

theorem covers_step (w m x : Nat) (h : covers w m x) :
    covers w (m + m) (smearStep x m) := by
  intro i
  unfold smearStep
  rw [Nat.testBit_lor, Nat.testBit_shiftRight]
  constructor
  · intro hb
    rcases Bool.or_eq_true_iff.mp hb with hb | hb
    · rcases (h i).mp hb with ⟨j, hj, hw⟩
      exact ⟨j, by omega, hw⟩
    · rcases (h (m + i)).mp hb with ⟨j, hj, hw⟩
      refine ⟨m + j, by omega, ?_⟩
      have : i + (m + j) = m + i + j := by omega
      rw [this]
      exact hw
  · rintro ⟨j, hj, hw⟩
    apply Bool.or_eq_true_iff.mpr
    rcases Nat.lt_or_ge j m with hjm | hjm
    · exact Or.inl ((h i).mpr ⟨j, hjm, hw⟩)
    · refine Or.inr ((h (m + i)).mpr ⟨j - m, by omega, ?_⟩)
      have : m + i + (j - m) = i + j := by omega
      rw [this]
      exact hw

theorem smear_covers (w : Nat) :
    covers w 64
      (smearStep (smearStep (smearStep (smearStep (smearStep (smearStep
        w 1) 2) 4) 8) 16) 32) := by
  have h1 := covers_one w
  have h2 := covers_step w 1 w h1
  have h4 := covers_step w 2 _ h2
  have h8 := covers_step w 4 _ h4
  have h16 := covers_step w 8 _ h8
  have h32 := covers_step w 16 _ h16
  have h64 := covers_step w 32 _ h32
  exact h64

theorem testBit_log2_self (w : Nat) (hw : w ≠ 0) :
    w.testBit w.log2 = true := by
  rw [Nat.testBit_to_div_mod]
  have h1 : 2 ^ w.log2 ≤ w := Nat.log2_self_le hw
  have h2 : w < 2 ^ (w.log2 + 1) := Nat.lt_log2_self
  have hlow : 1 ≤ w / 2 ^ w.log2 :=
    (Nat.one_le_div_iff (Nat.pos_pow_of_pos _ (by omega))).mpr h1
  have hhigh : w / 2 ^ w.log2 < 2 := by
    rw [Nat.div_lt_iff_lt_mul (Nat.pos_pow_of_pos _ (by omega))]
    have hp : 2 ^ (w.log2 + 1) = 2 * 2 ^ w.log2 := by
      rw [Nat.pow_succ]
      ring
    omega
  have : w / 2 ^ w.log2 = 1 := by omega
  rw [this]
  decide

theorem testBit_le_log2 (w i : Nat) (h : w.testBit i = true) : i ≤ w.log2 := by
  have h1 : 2 ^ i ≤ w := Nat.testBit_implies_ge h
  have hw : w ≠ 0 := by
    intro h0
    rw [h0] at h1
    have : (0 : Nat) < 2 ^ i := Nat.pos_pow_of_pos _ (by omega)
    omega
  exact (Nat.le_log2 hw).mpr h1

theorem smear_eq_zero :
    smearStep (smearStep (smearStep (smearStep (smearStep (smearStep
      0 1) 2) 4) 8) 16) 32 = 0 := by decide

theorem smear_eq (w : Nat) (hw : w ≠ 0) (hw2 : w < u64) :
    smearStep (smearStep (smearStep (smearStep (smearStep (smearStep
      w 1) 2) 4) 8) 16) 32 = 2 ^ (w.log2 + 1) - 1 := by
  have hcov := smear_covers w
  apply Nat.eq_of_testBit_eq
  intro i
  rw [Nat.testBit_two_pow_sub_one]
  have hlog : w.log2 < 64 := by
    rw [Nat.log2_lt hw]
    exact hw2
  rcases Nat.lt_or_ge i (w.log2 + 1) with hi | hi
  · have : ∃ j, j < 64 ∧ w.testBit (i + j) = true := by
      refine ⟨w.log2 - i, by omega, ?_⟩
      have : i + (w.log2 - i) = w.log2 := by omega
      rw [this]
      exact testBit_log2_self w hw
    rw [(hcov i).mpr this]
    simp [hi]
  · have hfalse :
        (smearStep (smearStep (smearStep (smearStep (smearStep (smearStep
          w 1) 2) 4) 8) 16) 32).testBit i = false := by
      rcases Bool.eq_false_or_eq_true ((smearStep (smearStep (smearStep
        (smearStep (smearStep (smearStep w 1) 2) 4) 8) 16) 32).testBit i)
        with h | h
      · exfalso
        rcases (hcov i).mp h with ⟨j, _, hwb⟩
        have := testBit_le_log2 w (i + j) hwb
        omega
      · exact h
    rw [hfalse]
    simp
    omega

theorem roundUp_zero : roundUp 0 = 0 := by decide

theorem roundUp_one : roundUp 1 = 1 := by decide

theorem roundUp_eq_pow (v : Nat) (h1 : 1 ≤ v) (h2 : v ≤ 2 ^ 63) :
    roundUp v = 2 ^ Nat.clog 2 v := by
  rcases Nat.lt_or_ge v 2 with hv | hv
  · have : v = 1 := by omega
    subst this
    rw [roundUp_one, Nat.clog_one_right]
    decide
  · rw [roundUp_unfold]
    have hvu : v < u64 := by
      have : (2 : Nat) ^ 63 < u64 := by decide
      omega
    rw [wsub_one v h1 hvu]
    have hwne : v - 1 ≠ 0 := by omega
    have hwu : v - 1 < u64 := by omega
    rw [smear_eq (v - 1) hwne hwu]
    have hlog : (v - 1).log2 < 63 := by
      rw [Nat.log2_lt hwne]
      have : v - 1 < 2 ^ 63 := by omega
      exact this
    have hpow : 0 < 2 ^ ((v - 1).log2 + 1) := Nat.pos_pow_of_pos _ (by omega)
    have hsum : 2 ^ ((v - 1).log2 + 1) - 1 + 1 = 2 ^ ((v - 1).log2 + 1) := by
      omega
    rw [hsum]
    have hlt : 2 ^ ((v - 1).log2 + 1) < u64 := by
      have : 2 ^ ((v - 1).log2 + 1) ≤ 2 ^ 63 :=
        Nat.pow_le_pow_right (by omega) (by omega)
      have h64 : (2 : Nat) ^ 63 < u64 := by decide
      omega
    rw [Nat.mod_eq_of_lt hlt]
    congr 1
    have hclog1 : Nat.clog 2 v ≤ (v - 1).log2 + 1 := by
      rw [← Nat.le_pow_iff_clog_le (by omega)]
      have := @Nat.lt_log2_self (v - 1)
      omega
    have hclog2 : (v - 1).log2 + 1 ≤ Nat.clog 2 v := by
      by_contra hcon
      have hle : Nat.clog 2 v ≤ (v - 1).log2 := by omega
      have : v ≤ 2 ^ (v - 1).log2 := by
        have := (Nat.le_pow_iff_clog_le (b := 2) (by omega)
          (x := v) (y := (v - 1).log2)).mpr hle
        exact this
      have := Nat.log2_self_le hwne
      omega
    omega

theorem roundUp_high (v : Nat) (h1 : 2 ^ 63 < v) (h2 : v < u64) :
    roundUp v = 0 := by
  rw [roundUp_unfold]
  rw [wsub_one v (by omega) h2]
  have hwne : v - 1 ≠ 0 := by
    have : (0 : Nat) < 2 ^ 63 := by positivity
    omega
  rw [smear_eq (v - 1) hwne (by omega)]
  have hlog : (v - 1).log2 = 63 := by
    have hlt : (v - 1).log2 < 64 := by
      rw [Nat.log2_lt hwne]
      have : v - 1 < 2 ^ 64 := by
        have : u64 = 2 ^ 64 := rfl
        omega
      exact this
    have hge : 63 ≤ (v - 1).log2 := by
      rw [Nat.le_log2 hwne]
      omega
    omega
  rw [hlog]
  have : 2 ^ (63 + 1) - 1 + 1 = u64 := by decide
  rw [this, Nat.mod_self]

theorem roundUp_mod (v : Nat) : roundUp v = roundUp (v % u64) := by
  rw [roundUp_unfold, roundUp_unfold, wsub_mod_left]

theorem roundUp_shape (v : Nat) :
    roundUp v = 0 ∨ ∃ k, k ≤ 63 ∧ roundUp v = 2 ^ k := by
  rw [roundUp_mod]
  have hu : v % u64 < u64 := Nat.mod_lt _ u64_pos
  rcases Nat.eq_zero_or_pos (v % u64) with h0 | hpos
  · rw [h0]
    exact Or.inl roundUp_zero
  · rcases le_or_lt (v % u64) (2 ^ 63) with hle | hgt
    · right
      refine ⟨Nat.clog 2 (v % u64), ?_, roundUp_eq_pow _ hpos hle⟩
      rw [← Nat.le_pow_iff_clog_le (by omega)]
      exact hle
    · exact Or.inl (roundUp_high _ hgt hu)

theorem and_two_pow_sub_one (x k : Nat) : x &&& (2 ^ k - 1) = x % 2 ^ k := by
  apply Nat.eq_of_testBit_eq
  intro i
  simp [Nat.testBit_and, Nat.testBit_two_pow_sub_one, Nat.testBit_mod_two_pow,
    Bool.and_comm]

theorem pow_lt_u64 (k : Nat) (h : k ≤ 63) : 2 ^ k < u64 := by
  have h1 : (2 : Nat) ^ k ≤ 2 ^ 63 := Nat.pow_le_pow_right (by omega) h
  have h2 : (2 : Nat) ^ 63 < u64 := by decide
  omega

theorem leastPow2_roundUp (n : Nat) (h1 : 1 ≤ n) (h2 : n ≤ 2 ^ 63) :
    IsLeastPow2Ge n (roundUp n) := by
  rw [roundUp_eq_pow n h1 h2]
  refine ⟨⟨Nat.clog 2 n, rfl⟩, ?_, ?_⟩
  · exact (Nat.le_pow_iff_clog_le (by omega)).mpr le_rfl
  · intro j hj
    exact Nat.pow_le_pow_right (by omega)
      ((Nat.le_pow_iff_clog_le (by omega)).mp hj)

theorem mod_ne_of_between (a b n : Nat) (h1 : a < b) (h2 : b - a < n) :
    a % n ≠ b % n := by
  intro h
  have hdvd : n ∣ b - a := (Nat.modEq_iff_dvd' h1.le).mp h
  have := Nat.le_of_dvd (by omega) hdvd
  omega

namespace Spsc

theorem length_nodes_new (size : Nat) :
    (NewRingBuffer (α := α) size).nodes.length = roundUp size := by
  simp [NewRingBuffer, init]

theorem Inv_new (size : Nat) : Inv (NewRingBuffer (α := α) size) := by
  rcases roundUp_shape size with h0 | ⟨k, hk, hpow⟩
  · left
    refine ⟨?_, rfl, rfl⟩
    apply List.eq_nil_of_length_eq_zero
    rw [length_nodes_new, h0]
  · right
    refine ⟨k, hk, ?_, ?_, le_rfl, ?_⟩
    · rw [length_nodes_new, hpow]
    · show wsub (roundUp size) 1 = 2 ^ k - 1
      rw [hpow]
      exact wsub_one _ (Nat.pos_pow_of_pos _ (by omega)) (pow_lt_u64 k hk)
    · show (0 : Nat) ≤ 0 + 2 ^ k
      omega

theorem Inv_put (rb : RingBuffer α) (hInv : Inv rb) (item : Option α)
    (off : Bool) : Inv (put rb item off).2 := by
  by_cases hd : rb.disposed > 0
  · simp only [put, hd, if_true]
    exact hInv
  · by_cases hfull : rb.write < rb.read + Cap rb
    · rcases hget : rb.nodes[rb.write &&& rb.mask]? with _ | n
      · simp [put, hd, hfull, hget]
        exact hInv
      · simp [put, hd, hfull, hget]
        rcases hInv with ⟨hnil, hr, hw⟩ | ⟨k, hk, hlen, hmask, hrw, hwc⟩
        · exfalso
          simp [Cap, hnil, hr, hw] at hfull
        · right
          unfold Cap at hfull
          refine ⟨k, hk, by simpa using hlen, hmask, ?_, ?_⟩
          · show rb.read ≤ rb.write + 1
            omega
          · show rb.write + 1 ≤ rb.read + 2 ^ k
            omega
    · cases off <;> simp [put, hd, hfull] <;> exact hInv

theorem Inv_poll (rb : RingBuffer α) (hInv : Inv rb) (t : Int) (e : Bool) :
    Inv (Poll rb t e).2 := by
  by_cases hd : rb.disposed > 0
  · simp only [Poll, hd, if_true]
    exact hInv
  · by_cases hne : rb.read = rb.write
    · by_cases ht : 0 < t ∧ e = true <;> simp [Poll, hd, hne, ht] <;>
        exact hInv
    · rcases hget : rb.nodes[rb.read &&& rb.mask]? with _ | n
      · simp [Poll, hd, hne, hget]
        exact hInv
      · simp [Poll, hd, hne, hget]
        rcases hInv with ⟨hnil, hr, hw⟩ | ⟨k, hk, hlen, hmask, hrw, hwc⟩
        · exact absurd (hr.trans hw.symm) hne
        · right
          refine ⟨k, hk, by simpa using hlen, hmask, ?_, ?_⟩
          · show rb.read + 1 ≤ rb.write
            omega
          · show rb.write ≤ rb.read + 1 + 2 ^ k
            omega

theorem Inv_dispose (rb : RingBuffer α) (hInv : Inv rb) : Inv (Dispose rb) := by
  unfold Dispose
  split
  · rcases hInv with ⟨hnil, hr, hw⟩ | ⟨k, hk, hlen, hmask, hrw, hwc⟩
    · exact Or.inl ⟨hnil, hr, hw⟩
    · exact Or.inr ⟨k, hk, hlen, hmask, hrw, hwc⟩
  · exact hInv

theorem Inv_step (rb : RingBuffer α) (hInv : Inv rb) (op : Op α) :
    Inv (step rb op) := by
  cases op with
  | put a => exact Inv_put rb hInv a false
  | offer a => exact Inv_put rb hInv a true
  | poll t e => exact Inv_poll rb hInv t e
  | get => exact Inv_poll rb hInv 0 false
  | dispose => exact Inv_dispose rb hInv

theorem Inv_run (size : Nat) (ops : List (Op α)) : Inv (run size ops) := by
  unfold run
  have h : ∀ (l : List (Op α)) (rb : RingBuffer α), Inv rb →
      Inv (l.foldl step rb) := by
    intro l
    induction l with
    | nil => intro rb h; exact h
    | cons o l ih =>
      intro rb h
      exact ih _ (Inv_step rb h o)
  exact h ops _ (Inv_new size)

theorem offer_full_iff (rb : RingBuffer α) (hInv : Inv rb)
    (hd : rb.disposed = 0) (item : Option α) :
    (Offer rb item).1 = .full ↔ rb.write = rb.read + Cap rb := by
  have hd' : ¬ rb.disposed > 0 := by omega
  rcases hInv with ⟨hnil, hr, hw⟩ | ⟨k, hk, hlen, hmask, hrw, hwc⟩
  · simp [Offer, put, hd', Cap, hnil, hr, hw]
  · by_cases hfull : rb.write < rb.read + Cap rb
    · have hidx : rb.write &&& rb.mask < rb.nodes.length := by
        rw [hmask, and_two_pow_sub_one, hlen]
        exact Nat.mod_lt _ (Nat.pos_pow_of_pos _ (by omega))
      rcases List.get?_eq_get hidx with hget
      simp only [Offer, put, hd', hfull, hget, if_true, if_false]
      constructor
      · intro h
        exact absurd h (by simp)
      · intro h
        omega
    · have heq : rb.write = rb.read + Cap rb := by
        unfold Cap at hfull ⊢
        rw [hlen] at hfull ⊢
        omega
      simp [Offer, put, hd', hfull, heq]

theorem put_snd_length (rb : RingBuffer α) (item : Option α) (off : Bool) :
    (put rb item off).2.nodes.length = rb.nodes.length := by
  by_cases hd : rb.disposed > 0
  · simp [put, hd]
  · by_cases hfull : rb.write < rb.read + Cap rb
    · rcases hget : rb.nodes[rb.write &&& rb.mask]? with _ | n <;>
        simp [put, hd, hfull, hget]
    · cases off <;> simp [put, hd, hfull]

theorem Rep_put (rb : RingBuffer α) (cs : List α) (x : α) (hRep : Rep rb cs)
    (hroom : cs.length < rb.nodes.length) :
    (put rb (some x) false).1 = .accepted ∧
      Rep (put rb (some x) false).2 (cs ++ [x]) := by
  obtain ⟨⟨k, hk, hlen, hmask⟩, hd, hwr, hle, hdata⟩ := hRep
  have hd' : ¬ rb.disposed > 0 := by omega
  have hfull : rb.write < rb.read + Cap rb := by
    unfold Cap
    omega
  have hidx : rb.write &&& rb.mask < rb.nodes.length := by
    rw [hmask, and_two_pow_sub_one, hlen]
    exact Nat.mod_lt _ (Nat.pos_pow_of_pos _ (by omega))
  have hget := List.getElem?_eq_getElem hidx
  constructor
  · simp [put, hd', hfull, hget]
  · simp only [put, hd', hfull, hget, List.get?_eq_getElem?, if_true,
      if_false, ite_false, ite_true]
    refine ⟨⟨k, hk, by simpa using hlen, hmask⟩, hd, ?_, ?_, ?_⟩
    · show rb.write + 1 = rb.read + (cs ++ [x]).length
      simp
      omega
    · simp
      omega
    · intro j hj
      simp only [List.length_append, List.length_cons, List.length_nil] at hj
      unfold slotData
      dsimp only
      simp only [List.get?_eq_getElem?]
      rcases Nat.lt_or_ge j cs.length with hjlt | hjge
      · rw [List.getElem?_set_ne (by
          rw [hmask, and_two_pow_sub_one, and_two_pow_sub_one]
          exact (mod_ne_of_between (rb.read + j) rb.write (2 ^ k)
            (by omega) (by omega)).symm)]
        have hd2 := hdata j hjlt
        unfold slotData at hd2
        simp only [List.get?_eq_getElem?] at hd2
        rw [hd2, List.getElem?_append_left hjlt]
      · have hj' : j = cs.length := by omega
        subst hj'
        have hp : (rb.read + cs.length) &&& rb.mask = rb.write &&& rb.mask := by
          rw [hmask, and_two_pow_sub_one, and_two_pow_sub_one]
          congr 1
          omega
        rw [hp, List.getElem?_set_eq hidx]
        simp [List.getElem?_concat_length]

theorem Rep_get (rb : RingBuffer α) (c : α) (cs : List α)
    (hRep : Rep rb (c :: cs)) :
    (Get rb).1 = .got (some c) ∧ Rep (Get rb).2 cs := by
  obtain ⟨⟨k, hk, hlen, hmask⟩, hd, hwr, hle, hdata⟩ := hRep
  simp only [List.length_cons] at hwr hle
  have hd' : ¬ rb.disposed > 0 := by omega
  have hne : ¬ rb.read = rb.write := by omega
  have hidx : rb.read &&& rb.mask < rb.nodes.length := by
    rw [hmask, and_two_pow_sub_one, hlen]
    exact Nat.mod_lt _ (Nat.pos_pow_of_pos _ (by omega))
  have hget := List.getElem?_eq_getElem hidx
  have hdata0 : rb.nodes[rb.read &&& rb.mask].data = some c := by
    have hd2 := hdata 0 (by simp)
    unfold slotData at hd2
    simp only [List.get?_eq_getElem?] at hd2
    rw [Nat.add_zero, hget] at hd2
    simpa using hd2
  constructor
  · simp [Get, Poll, hd', hne, hget, hdata0]
  · simp only [Get, Poll, hd', hne, hget, List.get?_eq_getElem?, if_true,
      if_false, ite_false, ite_true, ne_eq, not_false_eq_true]
    refine ⟨⟨k, hk, by simpa using hlen, hmask⟩, hd, ?_, ?_, ?_⟩
    · show rb.write = rb.read + 1 + cs.length
      omega
    · simp
      omega
    · intro j hj
      unfold slotData
      dsimp only
      simp only [List.get?_eq_getElem?]
      rw [List.getElem?_set_ne (by
        rw [hmask, and_two_pow_sub_one, and_two_pow_sub_one]
        exact mod_ne_of_between rb.read (rb.read + 1 + j) (2 ^ k)
          (by omega) (by omega))]
      have hd2 := hdata (j + 1) (by simp only [List.length_cons]; omega)
      unfold slotData at hd2
      simp only [List.get?_eq_getElem?] at hd2
      have harg : rb.read + (j + 1) = rb.read + 1 + j := by omega
      rw [harg] at hd2
      rw [hd2]
      simp

theorem Rep_new (size : Nat) (h1 : 1 ≤ size) (h2 : size ≤ 2 ^ 63) :
    Rep (NewRingBuffer (α := α) size) [] := by
  have hclog : Nat.clog 2 size ≤ 63 := by
    rw [← Nat.le_pow_iff_clog_le (by omega)]
    exact h2
  have hcap : (NewRingBuffer (α := α) size).nodes.length
      = 2 ^ Nat.clog 2 size := by
    rw [length_nodes_new, roundUp_eq_pow size h1 h2]
  refine ⟨⟨Nat.clog 2 size, hclog, hcap, ?_⟩, rfl, by rfl, by simp, ?_⟩
  · show wsub (roundUp size) 1 = 2 ^ Nat.clog 2 size - 1
    rw [roundUp_eq_pow size h1 h2]
    exact wsub_one _ (Nat.pos_pow_of_pos _ (by omega)) (pow_lt_u64 _ hclog)
  · intro j hj
    simp at hj

theorem fill_spec (xs : List α) : ∀ (rb : RingBuffer α) (cs : List α),
    Rep rb cs → cs.length + xs.length ≤ rb.nodes.length →
    ∃ rb', fill rb xs = some rb' ∧ Rep rb' (cs ++ xs) := by
  induction xs with
  | nil =>
    intro rb cs hRep _
    exact ⟨rb, rfl, by simpa using hRep⟩
  | cons x xs ih =>
    intro rb cs hRep hfit
    simp only [List.length_cons] at hfit
    obtain ⟨hacc, hRep2⟩ := Rep_put rb cs x hRep (by omega)
    have hfit2 : (cs ++ [x]).length + xs.length
        ≤ (put rb (some x) false).2.nodes.length := by
      rw [put_snd_length]
      simp
      omega
    rcases ih (put rb (some x) false).2 (cs ++ [x]) hRep2 hfit2 with
      ⟨rb', hfill, hRep'⟩
    refine ⟨rb', ?_, by simpa using hRep'⟩
    show fill rb (x :: xs) = some rb'
    unfold fill
    rcases hres : put rb (some x) false with ⟨r, rb2⟩
    rw [hres] at hacc hfill
    simp only at hacc
    subst hacc
    simpa using hfill

theorem drain_spec (cs : List α) : ∀ rb : RingBuffer α, Rep rb cs →
    drainN rb cs.length = cs.map fun c => PollOut.got (some c) := by
  induction cs with
  | nil =>
    intro rb _
    rfl
  | cons c cs ih =>
    intro rb hRep
    obtain ⟨hgot, hRep'⟩ := Rep_get rb c cs hRep
    show (Get rb).1 :: drainN (Get rb).2 cs.length
      = List.map (fun c => PollOut.got (some c)) (c :: cs)
    rw [hgot, ih _ hRep']
    rfl

end Spsc


theorem eq_of_mod_eq_of_close (p q n : Nat) (h : p % n = q % n) (h1 : p ≤ q)
    (h2 : q - p < n) : p = q := by
  rcases Nat.eq_or_lt_of_le h1 with he | hlt
  · exact he
  · exact absurd h (mod_ne_of_between p q n hlt h2)

namespace Dspsc

theorem dspsc_length_new (size : Nat) :
    (NewRingBuffer (α := α) size).nodes.length = roundUp size := by
  simp [NewRingBuffer, init]

theorem dspsc_Inv_new (size : Nat) : Inv (NewRingBuffer (α := α) size) := by
  rcases roundUp_shape size with h0 | ⟨k, hk, hpow⟩
  · left
    refine ⟨?_, rfl, rfl⟩
    apply List.eq_nil_of_length_eq_zero
    rw [dspsc_length_new, h0]
  · right
    refine ⟨k, hk, by rw [dspsc_length_new, hpow], ?_, le_rfl, ?_, ?_⟩
    · show wsub (roundUp size) 1 = 2 ^ k - 1
      rw [hpow]
      exact wsub_one _ (Nat.pos_pow_of_pos _ (by omega)) (pow_lt_u64 k hk)
    · show (0 : Nat) ≤ 0 + 2 ^ k
      omega
    · have hnodes : ∀ i (h : i < (NewRingBuffer (α := α) size).nodes.length),
          (NewRingBuffer (α := α) size).nodes[i]
            = { ready := 0, data := none } := by
        intro i h
        show (List.replicate (roundUp size)
          ({ ready := 0, data := none } : node α))[i] = _
        exact List.getElem_replicate _ _
      intro i hi
      rw [hnodes i hi]
      refine ⟨Or.inl rfl, ?_, ?_⟩
      · intro h
        simp at h
      · rintro ⟨p, hp1, hp2, -⟩
        exact absurd (hp1.trans_lt hp2) (by show ¬ (0 : Nat) < 0; omega)

theorem dspsc_Inv_put (rb : RingBuffer α) (hInv : Inv rb) (item : Option α)
    (off : Bool) : Inv (put rb item off).2 := by
  rcases hget : rb.nodes[rb.write &&& rb.mask]? with _ | n
  · simp only [put, List.get?_eq_getElem?, hget]
    exact hInv
  · have hidx : rb.write &&& rb.mask < rb.nodes.length := by
      rcases Nat.lt_or_ge (rb.write &&& rb.mask) rb.nodes.length with h | h
      · exact h
      · rw [List.getElem?_eq_none h] at hget
        cases hget
    have hn : rb.nodes[rb.write &&& rb.mask] = n := by
      rw [List.getElem?_eq_getElem hidx] at hget
      exact Option.some_injective _ hget
    by_cases hd : rb.disposed = 1
    · simp only [put, List.get?_eq_getElem?, hget, hd, if_true]
      exact hInv
    · by_cases hr : n.ready = 0
      · simp only [put, List.get?_eq_getElem?, hget, hd, hr, if_true, if_false,
          ite_true, ite_false]
        rcases hInv with ⟨hnil, -, -⟩ | ⟨k, hk, hlen, hmask, hrw, hwc, hflag⟩
        · exfalso
          rw [hnil] at hidx
          simp at hidx
        · have idxmod : rb.write &&& rb.mask = rb.write % 2 ^ k := by
            rw [hmask, and_two_pow_sub_one]
          have hlt : rb.write < rb.read + 2 ^ k := by
            rcases Nat.lt_or_ge rb.write (rb.read + 2 ^ k) with h | h
            · exact h
            · exfalso
              have heq : rb.write = rb.read + 2 ^ k := by omega
              have hready1 : rb.nodes[rb.write &&& rb.mask].ready = 1 := by
                apply ((hflag _ hidx).2).mpr
                refine ⟨rb.read, le_rfl, ?_, ?_⟩
                · have : (0 : Nat) < 2 ^ k := Nat.pos_pow_of_pos _ (by omega)
                  omega
                · rw [idxmod, heq, Nat.add_mod_right]
              rw [hn] at hready1
              omega
          right
          refine ⟨k, hk, by simpa using hlen, hmask, ?_, ?_, ?_⟩
          · show rb.read ≤ rb.write + 1
            omega
          · show rb.write + 1 ≤ rb.read + 2 ^ k
            omega
          · intro i hi
            have hi' : i < rb.nodes.length := by simpa using hi
            dsimp only
            rw [List.getElem_set]
            by_cases hieq : rb.write &&& rb.mask = i
            · rw [if_pos hieq]
              refine ⟨Or.inr rfl, ?_, ?_⟩
              · intro _
                exact ⟨rb.write, hrw, by omega, by rw [← hieq, idxmod]⟩
              · intro _
                rfl
            · rw [if_neg hieq]
              refine ⟨(hflag i hi').1, ?_⟩
              constructor
              · intro h
                rcases ((hflag i hi').2).mp h with ⟨p, hp1, hp2, hp3⟩
                exact ⟨p, hp1, by omega, hp3⟩
              · rintro ⟨p, hp1, hp2, hp3⟩
                rcases Nat.lt_or_ge p rb.write with hplt | hpge
                · exact ((hflag i hi').2).mpr ⟨p, hp1, hplt, hp3⟩
                · exfalso
                  have : p = rb.write := by omega
                  subst this
                  rw [← hp3, ← idxmod] at hieq
                  exact hieq rfl
      · cases off <;>
          simp only [put, List.get?_eq_getElem?, hget, hd, hr, if_true,
            if_false, ite_true, ite_false, Bool.false_eq_true] <;>
          exact hInv

theorem dspsc_Inv_poll (rb : RingBuffer α) (hInv : Inv rb) (t : Int)
    (e : Bool) : Inv (Poll rb t e).2 := by
  rcases hget : rb.nodes[rb.read &&& rb.mask]? with _ | n
  · simp only [Poll, List.get?_eq_getElem?, hget]
    exact hInv
  · have hidx : rb.read &&& rb.mask < rb.nodes.length := by
      rcases Nat.lt_or_ge (rb.read &&& rb.mask) rb.nodes.length with h | h
      · exact h
      · rw [List.getElem?_eq_none h] at hget
        cases hget
    have hn : rb.nodes[rb.read &&& rb.mask] = n := by
      rw [List.getElem?_eq_getElem hidx] at hget
      exact Option.some_injective _ hget
    by_cases hd : rb.disposed = 1
    · simp only [Poll, List.get?_eq_getElem?, hget, hd, if_true]
      exact hInv
    · by_cases hr : n.ready = 1
      · simp only [Poll, List.get?_eq_getElem?, hget, hd, hr, if_true,
          if_false, ite_true, ite_false]
        rcases hInv with ⟨hnil, -, -⟩ | ⟨k, hk, hlen, hmask, hrw, hwc, hflag⟩
        · exfalso
          rw [hnil] at hidx
          simp at hidx
        · have idxmod : rb.read &&& rb.mask = rb.read % 2 ^ k := by
            rw [hmask, and_two_pow_sub_one]
          have hlt : rb.read < rb.write := by
            rcases Nat.lt_or_ge rb.read rb.write with h | h
            · exact h
            · exfalso
              have heq : rb.read = rb.write := by omega
              have h1 := ((hflag _ hidx).2).mp (by rw [hn]; exact hr)
              rcases h1 with ⟨p, hp1, hp2, -⟩
              omega
          right
          refine ⟨k, hk, by simpa using hlen, hmask, ?_, ?_, ?_⟩
          · show rb.read + 1 ≤ rb.write
            omega
          · show rb.write ≤ rb.read + 1 + 2 ^ k
            omega
          · intro i hi
            have hi' : i < rb.nodes.length := by simpa using hi
            dsimp only
            rw [List.getElem_set]
            by_cases hieq : rb.read &&& rb.mask = i
            · rw [if_pos hieq]
              refine ⟨Or.inl rfl, ?_, ?_⟩
              · intro h
                simp at h
              · rintro ⟨p, hp1, hp2, hp3⟩
                exfalso
                have hpmod : p % 2 ^ k = rb.read % 2 ^ k := by
                  rw [hp3, ← hieq, idxmod]
                have := eq_of_mod_eq_of_close rb.read p (2 ^ k) hpmod.symm
                  (by omega) (by omega)
                omega
            · rw [if_neg hieq]
              refine ⟨(hflag i hi').1, ?_⟩
              constructor
              · intro h
                rcases ((hflag i hi').2).mp h with ⟨p, hp1, hp2, hp3⟩
                rcases Nat.eq_or_lt_of_le hp1 with hpe | hplt
                · exfalso
                  rw [← hpe] at hp3
                  rw [← hp3, ← idxmod] at hieq
                  exact hieq rfl
                · exact ⟨p, by omega, hp2, hp3⟩
              · rintro ⟨p, hp1, hp2, hp3⟩
                exact ((hflag i hi').2).mpr ⟨p, by omega, hp2, hp3⟩
      · by_cases ht : 0 < t ∧ e = true <;>
          simp only [Poll, List.get?_eq_getElem?, hget, hd, hr, ht, if_true,
            if_false, ite_true, ite_false] <;>
          exact hInv

theorem dspsc_Inv_dispose (rb : RingBuffer α) (hInv : Inv rb) :
    Inv (Dispose rb) := by
  unfold Dispose
  split
  · rcases hInv with ⟨hnil, hr, hw⟩ | ⟨k, hk, hlen, hmask, hrw, hwc, hflag⟩
    · exact Or.inl ⟨hnil, hr, hw⟩
    · exact Or.inr ⟨k, hk, hlen, hmask, hrw, hwc, hflag⟩
  · exact hInv

theorem dspsc_Inv_step (rb : RingBuffer α) (hInv : Inv rb) (op : Op α) :
    Inv (step rb op) := by
  cases op with
  | put a => exact dspsc_Inv_put rb hInv a false
  | offer a => exact dspsc_Inv_put rb hInv a true
  | poll t e => exact dspsc_Inv_poll rb hInv t e
  | get => exact dspsc_Inv_poll rb hInv 0 false
  | dispose => exact dspsc_Inv_dispose rb hInv

theorem dspsc_Inv_run (size : Nat) (ops : List (Op α)) : Inv (run size ops) := by
  unfold run
  have h : ∀ (l : List (Op α)) (rb : RingBuffer α), Inv rb →
      Inv (l.foldl step rb) := by
    intro l
    induction l with
    | nil => intro rb h; exact h
    | cons o l ih =>
      intro rb h
      exact ih _ (dspsc_Inv_step rb h o)
  exact h ops _ (dspsc_Inv_new size)

theorem dspsc_offer_full_iff (rb : RingBuffer α) (hInv : Inv rb)
    (hd : rb.disposed = 0) (hne : rb.nodes ≠ []) (item : Option α) :
    (Offer rb item).1 = .full ↔ rb.write = rb.read + Cap rb := by
  rcases hInv with ⟨hnil, -, -⟩ | ⟨k, hk, hlen, hmask, hrw, hwc, hflag⟩
  · exact absurd hnil hne
  · have hidx : rb.write &&& rb.mask < rb.nodes.length := by
      rw [hmask, and_two_pow_sub_one, hlen]
      exact Nat.mod_lt _ (Nat.pos_pow_of_pos _ (by omega))
    have hget := List.getElem?_eq_getElem hidx
    have hd1 : ¬ rb.disposed = 1 := by omega
    have idxmod : rb.write &&& rb.mask = rb.write % 2 ^ k := by
      rw [hmask, and_two_pow_sub_one]
    have hcap : Cap rb = 2 ^ k := by
      unfold Cap
      exact hlen
    by_cases hr : rb.nodes[rb.write &&& rb.mask].ready = 0
    · have hL : (Offer rb item).1 = PutOut.accepted := by
        simp [Offer, put, hget, hd1, hr]
      rw [hL]
      constructor
      · intro h
        exact absurd h (by decide)
      · intro hfull2
        exfalso
        have hready1 : rb.nodes[rb.write &&& rb.mask].ready = 1 := by
          apply ((hflag _ hidx).2).mpr
          refine ⟨rb.read, le_rfl, ?_, ?_⟩
          · have : (0 : Nat) < 2 ^ k := Nat.pos_pow_of_pos _ (by omega)
            omega
          · rw [idxmod, hfull2, hcap, Nat.add_mod_right]
        omega
    · have hr1 : rb.nodes[rb.write &&& rb.mask].ready = 1 := by
        rcases (hflag _ hidx).1 with h0 | h1
        · exact absurd h0 hr
        · exact h1
      have hrne : ¬ rb.nodes[rb.write &&& rb.mask].ready = 0 := by omega
      have hL : (Offer rb item).1 = PutOut.full := by
        simp [Offer, put, hget, hd1, hrne]
      rw [hL]
      constructor
      · intro _
        rcases ((hflag _ hidx).2).mp hr1 with ⟨p, hp1, hp2, hp3⟩
        rw [idxmod] at hp3
        have hfar : rb.write - p = 2 ^ k := by
          rcases Nat.lt_or_ge (rb.write - p) (2 ^ k) with hlt | hge
          · exact absurd hp3 (mod_ne_of_between p rb.write (2 ^ k) hp2 hlt)
          · omega
        rw [hcap]
        omega
      · intro _
        rfl

theorem dspsc_put_snd_length (rb : RingBuffer α) (item : Option α)
    (off : Bool) : (put rb item off).2.nodes.length = rb.nodes.length := by
  rcases hget : rb.nodes[rb.write &&& rb.mask]? with _ | n
  · simp [put, hget]
  · by_cases hd : rb.disposed = 1
    · simp [put, hget, hd]
    · by_cases hr : n.ready = 0
      · simp [put, hget, hd, hr]
      · cases off <;> simp [put, hget, hd, hr]

theorem dspsc_Rep_put (rb : RingBuffer α) (cs : List α) (x : α)
    (hRep : Rep rb cs) (hroom : cs.length < rb.nodes.length) :
    (put rb (some x) false).1 = .accepted ∧
      Rep (put rb (some x) false).2 (cs ++ [x]) := by
  obtain ⟨hInv, hd, hnil, hwr, hle, hdata⟩ := hRep
  have hInvM := hInv
  rcases hInvM with ⟨hnil2, -, -⟩ | ⟨k, hk, hlen, hmask, hrw, hwc, hflag⟩
  · exact absurd hnil2 hnil
  · have hidx : rb.write &&& rb.mask < rb.nodes.length := by
      rw [hmask, and_two_pow_sub_one, hlen]
      exact Nat.mod_lt _ (Nat.pos_pow_of_pos _ (by omega))
    have hget := List.getElem?_eq_getElem hidx
    have hd1 : ¬ rb.disposed = 1 := by omega
    have idxmod : rb.write &&& rb.mask = rb.write % 2 ^ k := by
      rw [hmask, and_two_pow_sub_one]
    have hready : rb.nodes[rb.write &&& rb.mask].ready = 0 := by
      rcases (hflag _ hidx).1 with h0 | h1
      · exact h0
      · exfalso
        rcases ((hflag _ hidx).2).mp h1 with ⟨p, hp1, hp2, hp3⟩
        rw [idxmod] at hp3
        exact mod_ne_of_between p rb.write (2 ^ k) hp2 (by omega) hp3
    have hInv2 := dspsc_Inv_put rb hInv (some x) false
    simp only [put, List.get?_eq_getElem?, hget, hd1, hready, if_true,
      if_false, ite_true, ite_false] at hInv2 ⊢
    refine ⟨by trivial, hInv2, hd, ?_, ?_, ?_, ?_⟩
    · show rb.nodes.set (rb.write &&& rb.mask) { ready := 1, data := some x }
        ≠ []
      intro hcon
      have hl0 := congrArg List.length hcon
      rw [List.length_set] at hl0
      simp only [List.length_nil] at hl0
      omega
    · show rb.write + 1 = rb.read + (cs ++ [x]).length
      simp
      omega
    · simp
      omega
    · intro j hj
      simp only [List.length_append, List.length_cons, List.length_nil] at hj
      unfold slotData
      dsimp only
      simp only [List.get?_eq_getElem?]
      rcases Nat.lt_or_ge j cs.length with hjlt | hjge
      · rw [List.getElem?_set_ne (by
          rw [hmask, and_two_pow_sub_one, and_two_pow_sub_one]
          exact (mod_ne_of_between (rb.read + j) rb.write (2 ^ k)
            (by omega) (by omega)).symm)]
        have hd2 := hdata j hjlt
        unfold slotData at hd2
        simp only [List.get?_eq_getElem?] at hd2
        rw [hd2, List.getElem?_append_left hjlt]
      · have hj' : j = cs.length := by omega
        subst hj'
        have hp : (rb.read + cs.length) &&& rb.mask = rb.write &&& rb.mask := by
          rw [hmask, and_two_pow_sub_one, and_two_pow_sub_one]
          congr 1
          omega
        rw [hp, List.getElem?_set_eq hidx]
        simp [List.getElem?_concat_length]

theorem dspsc_Rep_get (rb : RingBuffer α) (c : α) (cs : List α)
    (hRep : Rep rb (c :: cs)) :
    (Get rb).1 = .got (some c) ∧ Rep (Get rb).2 cs := by
  obtain ⟨hInv, hd, hnil, hwr, hle, hdata⟩ := hRep
  simp only [List.length_cons] at hwr hle
  have hInvM := hInv
  rcases hInvM with ⟨hnil2, -, -⟩ | ⟨k, hk, hlen, hmask, hrw, hwc, hflag⟩
  · exact absurd hnil2 hnil
  · have hidx : rb.read &&& rb.mask < rb.nodes.length := by
      rw [hmask, and_two_pow_sub_one, hlen]
      exact Nat.mod_lt _ (Nat.pos_pow_of_pos _ (by omega))
    have hget := List.getElem?_eq_getElem hidx
    have hd1 : ¬ rb.disposed = 1 := by omega
    have idxmod : rb.read &&& rb.mask = rb.read % 2 ^ k := by
      rw [hmask, and_two_pow_sub_one]
    have hready : rb.nodes[rb.read &&& rb.mask].ready = 1 := by
      apply ((hflag _ hidx).2).mpr
      exact ⟨rb.read, le_rfl, by omega, by rw [idxmod]⟩
    have hdata0 : rb.nodes[rb.read &&& rb.mask].data = some c := by
      have hd2 := hdata 0 (by simp)
      unfold slotData at hd2
      simp only [List.get?_eq_getElem?] at hd2
      rw [Nat.add_zero, hget] at hd2
      simpa using hd2
    have hInv2 := dspsc_Inv_poll rb hInv 0 false
    simp only [Get, Poll, List.get?_eq_getElem?, hget, hd1, hready, if_true,
      if_false, ite_true, ite_false] at hInv2 ⊢
    refine ⟨by rw [hdata0], hInv2, hd, ?_, ?_, ?_, ?_⟩
    · show rb.nodes.set (rb.read &&& rb.mask)
        { ready := 0, data := rb.nodes[rb.read &&& rb.mask].data } ≠ []
      intro hcon
      have hl0 := congrArg List.length hcon
      rw [List.length_set] at hl0
      simp only [List.length_nil] at hl0
      omega
    · show rb.write = rb.read + 1 + cs.length
      omega
    · simp
      omega
    · intro j hj
      unfold slotData
      dsimp only
      simp only [List.get?_eq_getElem?]
      rw [List.getElem?_set_ne (by
        rw [hmask, and_two_pow_sub_one, and_two_pow_sub_one]
        exact mod_ne_of_between rb.read (rb.read + 1 + j) (2 ^ k)
          (by omega) (by omega))]
      have hd2 := hdata (j + 1) (by simp only [List.length_cons]; omega)
      unfold slotData at hd2
      simp only [List.get?_eq_getElem?] at hd2
      have harg : rb.read + (j + 1) = rb.read + 1 + j := by omega
      rw [harg] at hd2
      rw [hd2]
      simp

theorem dspsc_Rep_new (size : Nat) (h1 : 1 ≤ size) (h2 : size ≤ 2 ^ 63) :
    Rep (NewRingBuffer (α := α) size) [] := by
  refine ⟨dspsc_Inv_new size, rfl, ?_, by rfl, by simp, ?_⟩
  · have hlen : (NewRingBuffer (α := α) size).nodes.length
        = 2 ^ Nat.clog 2 size := by
      rw [dspsc_length_new, roundUp_eq_pow size h1 h2]
    intro hcon
    rw [hcon] at hlen
    have : (0 : Nat) < 2 ^ Nat.clog 2 size := Nat.pos_pow_of_pos _ (by omega)
    simp at hlen
    omega
  · intro j hj
    simp at hj

theorem dspsc_fill_spec (xs : List α) : ∀ (rb : RingBuffer α) (cs : List α),
    Rep rb cs → cs.length + xs.length ≤ rb.nodes.length →
    ∃ rb', fill rb xs = some rb' ∧ Rep rb' (cs ++ xs) := by
  induction xs with
  | nil =>
    intro rb cs hRep _
    exact ⟨rb, rfl, by simpa using hRep⟩
  | cons x xs ih =>
    intro rb cs hRep hfit
    simp only [List.length_cons] at hfit
    obtain ⟨hacc, hRep2⟩ := dspsc_Rep_put rb cs x hRep (by omega)
    have hfit2 : (cs ++ [x]).length + xs.length
        ≤ (put rb (some x) false).2.nodes.length := by
      rw [dspsc_put_snd_length]
      simp
      omega
    rcases ih (put rb (some x) false).2 (cs ++ [x]) hRep2 hfit2 with
      ⟨rb', hfill, hRep'⟩
    refine ⟨rb', ?_, by simpa using hRep'⟩
    show fill rb (x :: xs) = some rb'
    unfold fill
    rcases hres : put rb (some x) false with ⟨r, rb2⟩
    rw [hres] at hacc hfill
    simp only at hacc
    subst hacc
    simpa using hfill

theorem dspsc_drain_spec (cs : List α) : ∀ rb : RingBuffer α, Rep rb cs →
    drainN rb cs.length = cs.map fun c => PollOut.got (some c) := by
  induction cs with
  | nil =>
    intro rb _
    rfl
  | cons c cs ih =>
    intro rb hRep
    obtain ⟨hgot, hRep'⟩ := dspsc_Rep_get rb c cs hRep
    show (Get rb).1 :: drainN (Get rb).2 cs.length
      = List.map (fun c => PollOut.got (some c)) (c :: cs)
    rw [hgot, ih _ hRep']
    rfl

end Dspsc

namespace Bspsc

theorem bspsc_length_new (size : Nat) :
    (NewRingBuffer (α := α) size).nodes.length = roundUp size := by
  simp [NewRingBuffer, init]

theorem bspsc_Inv_new (size : Nat) : Inv (NewRingBuffer (α := α) size) := by
  refine ⟨le_rfl, ?_, ?_, ?_⟩ <;> show (0 : Nat) ≤ _ <;> omega

theorem bspsc_Inv_put (rb : RingBuffer α) (hInv : Inv rb) (item : Option α)
    (off : Bool) : Inv (put rb item off).2 := by
  obtain ⟨h1, h2, h3, h4⟩ := hInv
  by_cases hd : rb.disposed > 0
  · simp only [put, hd, if_true]
    exact ⟨h1, h2, h3, h4⟩
  · by_cases hfull : rb.writeCache < rb.read + Cap rb
    · rcases hget : rb.nodes[rb.writeCache &&& rb.mask]? with _ | n
      · simp [put, hd, hfull, hget]
        exact ⟨h1, h2, h3, h4⟩
      · simp only [put, hd, hfull, hget, List.get?_eq_getElem?, if_true,
          if_false, ite_true, ite_false]
        unfold Cap at hfull
        by_cases hb : rb.writeCache + 1 - rb.write ≥ rb.maxbatch <;>
          simp only [hb, if_true, if_false, ite_true, ite_false] <;>
          refine ⟨?_, ?_, ?_, ?_⟩ <;>
          (first
          | omega
          | (dsimp only; omega)
          | (dsimp only; simp only [List.length_set]; omega))
    · by_cases hpub : rb.writeCache > rb.write <;>
        by_cases hoff : off = true <;>
        simp only [put, hd, hfull, hpub, hoff, Bool.false_eq_true,
          Bool.true_eq_false, if_true, if_false, ite_true, ite_false] <;>
        refine ⟨?_, ?_, ?_, ?_⟩ <;>
          (first
          | omega
          | (dsimp only; omega)
          | (dsimp only; simp only [List.length_set]; omega))

theorem bspsc_Inv_poll (rb : RingBuffer α) (hInv : Inv rb) (t : Int)
    (e : Bool) : Inv (Poll rb t e).2 := by
  obtain ⟨h1, h2, h3, h4⟩ := hInv
  by_cases hd : rb.disposed > 0
  · simp only [Poll, hd, if_true]
    exact ⟨h1, h2, h3, h4⟩
  · by_cases hne : rb.readCache = rb.write
    · by_cases hpub : rb.write > rb.read <;>
        by_cases ht : 0 < t ∧ e = true <;>
        simp only [Poll, hd, hne, hpub, ht, Bool.false_eq_true,
          Bool.true_eq_false, and_self, if_true, if_false, ite_true,
          ite_false, ne_eq, not_true_eq_false, not_false_eq_true] <;>
        refine ⟨?_, ?_, ?_, ?_⟩ <;>
          (first
          | omega
          | (dsimp only; omega)
          | (dsimp only; simp only [List.length_set]; omega))
    · rcases hget : rb.nodes[rb.readCache &&& rb.mask]? with _ | n
      · simp [Poll, hd, hne, hget]
        exact ⟨h1, h2, h3, h4⟩
      · simp only [Poll, hd, hne, hget, List.get?_eq_getElem?, if_true,
          if_false, ite_true, ite_false, ne_eq, not_false_eq_true]
        by_cases hb : rb.readCache + 1 - rb.read ≥ rb.maxbatch <;>
          simp only [hb, if_true, if_false, ite_true, ite_false] <;>
          refine ⟨?_, ?_, ?_, ?_⟩ <;>
          (first
          | omega
          | (dsimp only; omega)
          | (dsimp only; simp only [List.length_set]; omega))

theorem bspsc_Inv_dispose (rb : RingBuffer α) (hInv : Inv rb) :
    Inv (Dispose rb) := by
  obtain ⟨h1, h2, h3, h4⟩ := hInv
  unfold Dispose
  split
  · exact ⟨h1, h2, h3, h4⟩
  · exact ⟨h1, h2, h3, h4⟩

theorem bspsc_Inv_step (rb : RingBuffer α) (hInv : Inv rb) (op : Op α) :
    Inv (step rb op) := by
  cases op with
  | put a => exact bspsc_Inv_put rb hInv a false
  | offer a => exact bspsc_Inv_put rb hInv a true
  | poll t e => exact bspsc_Inv_poll rb hInv t e
  | get => exact bspsc_Inv_poll rb hInv 0 false
  | dispose => exact bspsc_Inv_dispose rb hInv

theorem bspsc_Inv_run (size : Nat) (ops : List (Op α)) :
    Inv (run size ops) := by
  unfold run
  have h : ∀ (l : List (Op α)) (rb : RingBuffer α), Inv rb →
      Inv (l.foldl step rb) := by
    intro l
    induction l with
    | nil => intro rb h; exact h
    | cons o l ih =>
      intro rb h
      exact ih _ (bspsc_Inv_step rb h o)
  exact h ops _ (bspsc_Inv_new size)

theorem bspsc_offer_of_full (rb : RingBuffer α) (hInv : Inv rb)
    (hd : rb.disposed = 0) (hfull : rb.writeCache = rb.readCache + Cap rb)
    (item : Option α) : (Offer rb item).1 = .full := by
  obtain ⟨h1, h2, h3, h4⟩ := hInv
  have hd' : ¬ rb.disposed > 0 := by omega
  have hnf : ¬ rb.writeCache < rb.read + Cap rb := by
    unfold Cap at hfull ⊢
    omega
  by_cases hpub : rb.writeCache > rb.write <;>
    simp [Offer, put, hd', hnf, hpub]

end Bspsc

theorem wsub_ne_zero_of_between (a b : Nat) (h1 : a < b) (h2 : b - a < u64) :
    wsub a b ≠ 0 := fun h =>
  mod_ne_of_between a b u64 h1 h2 ((wsub_eq_zero_iff a b).mp h)

theorem wsub_ne_zero_of_between' (a b : Nat) (h1 : a < b) (h2 : b - a < u64) :
    wsub b a ≠ 0 := fun h =>
  mod_ne_of_between a b u64 h1 h2 ((wsub_eq_zero_iff b a).mp h).symm

namespace Mpmc

theorem mpmc_length_new (size : Nat) :
    (NewRingBuffer (α := α) size).nodes.length
      = roundUp (if size < minSize then minSize else size) := by
  simp [NewRingBuffer, init]

theorem mpmc_clog_ge_one (v : Nat) (h : 2 ≤ v) : 1 ≤ Nat.clog 2 v := by
  by_contra h0
  have hc : Nat.clog 2 v ≤ 0 := by omega
  have := (Nat.le_pow_iff_clog_le (b := 2) (by omega)).mpr hc
  simp at this
  omega

theorem mpmc_new_node (size i : Nat)
    (h : i < (NewRingBuffer (α := α) size).nodes.length) :
    (NewRingBuffer (α := α) size).nodes[i]
      = { position := i, data := none } := by
  show ((List.range (roundUp (if size < minSize then minSize else size))).map
    fun i => ({ position := i, data := none } : node α))[i] = _
  rw [List.getElem_map, List.getElem_range]

theorem mpmc_Inv_new (size : Nat) (hsz : size < u64) :
    Inv (NewRingBuffer (α := α) size) := by
  have hs2 : 2 ≤ (if size < minSize then minSize else size) := by
    unfold minSize
    split <;> omega
  have hsu : (if size < minSize then minSize else size) < u64 := by
    have h2u : (2 : Nat) < u64 := by decide
    unfold minSize
    split <;> omega
  rcases le_or_lt (if size < minSize then minSize else size) (2 ^ 63) with
    hle | hgt
  · right
    set s := if size < minSize then minSize else size with hs
    have hru : roundUp s = 2 ^ Nat.clog 2 s :=
      roundUp_eq_pow s (by omega) hle
    have hk1 : 1 ≤ Nat.clog 2 s := mpmc_clog_ge_one s hs2
    have hk63 : Nat.clog 2 s ≤ 63 := by
      rw [← Nat.le_pow_iff_clog_le (by omega)]
      exact hle
    refine ⟨Nat.clog 2 s, hk1, hk63, by rw [mpmc_length_new, hru], ?_, le_rfl,
      ?_, ?_, ?_⟩
    · show wsub (roundUp s) 1 = 2 ^ Nat.clog 2 s - 1
      rw [hru]
      exact wsub_one _ (Nat.pos_pow_of_pos _ (by omega))
        (pow_lt_u64 _ hk63)
    · show (0 : Nat) ≤ 0 + 2 ^ Nat.clog 2 s
      omega
    · intro p hp1 hp2
      exact absurd (hp1.trans_lt hp2) (by show ¬ (0:Nat) < 0; omega)
    · intro p hp1 hp2
      have hp2' : p < 0 + 2 ^ Nat.clog 2 s := hp2
      have hplt : p < 2 ^ Nat.clog 2 s := by omega
      have hb : p % 2 ^ Nat.clog 2 s
          < (NewRingBuffer (α := α) size).nodes.length := by
        rw [mpmc_length_new, hru]
        exact Nat.mod_lt _ (Nat.pos_pow_of_pos _ (by omega))
      refine ⟨hb, ?_⟩
      rw [mpmc_new_node size _ hb]
      exact Nat.mod_eq_of_lt hplt
  · left
    have h0 : roundUp (if size < minSize then minSize else size) = 0 :=
      roundUp_high _ hgt hsu
    refine ⟨?_, rfl, rfl⟩
    apply List.eq_nil_of_length_eq_zero
    rw [mpmc_length_new, h0]

theorem mpmc_Inv_put (rb : RingBuffer α) (hInv : Inv rb) (item : Option α)
    (off : Bool) : Inv (put rb item off).2 := by
  by_cases hd : rb.disposed = 1
  · simp only [put, hd, if_true]
    exact hInv
  · rcases hget : rb.nodes[rb.write &&& rb.mask]? with _ | n
    · simp only [put, List.get?_eq_getElem?, hd, hget, if_false, ite_false]
      exact hInv
    · have hidx : rb.write &&& rb.mask < rb.nodes.length := by
        rcases Nat.lt_or_ge (rb.write &&& rb.mask) rb.nodes.length with h | h
        · exact h
        · rw [List.getElem?_eq_none h] at hget
          cases hget
      have hn : rb.nodes[rb.write &&& rb.mask] = n := by
        rw [List.getElem?_eq_getElem hidx] at hget
        exact Option.some_injective _ hget
      by_cases hdif : wsub n.position rb.write = 0
      · simp only [put, List.get?_eq_getElem?, hd, hget, hdif, if_true,
          if_false, ite_true, ite_false]
        rcases hInv with ⟨hnil, -, -⟩ |
          ⟨k, hk1, hk, hlen, hmask, hrw, hwc, hfullc, hemptyc⟩
        · exfalso
          rw [hnil] at hidx
          simp at hidx
        · have idxmod : rb.write &&& rb.mask = rb.write % 2 ^ k := by
            rw [hmask, and_two_pow_sub_one]
          have hp2 : (2 : Nat) ≤ 2 ^ k := by
            calc (2 : Nat) = 2 ^ 1 := rfl
            _ ≤ 2 ^ k := Nat.pow_le_pow_right (by omega) hk1
          have hku := pow_lt_u64 k hk
          have hlt : rb.write < rb.read + 2 ^ k := by
            rcases Nat.lt_or_ge rb.write (rb.read + 2 ^ k) with h | h
            · exact h
            · exfalso
              have heq : rb.write = rb.read + 2 ^ k := by omega
              rcases hfullc rb.read le_rfl (by omega) with ⟨hb, hpos⟩
              have hmm : rb.read % 2 ^ k = rb.write % 2 ^ k := by
                rw [heq, Nat.add_mod_right]
              have hn2 : n.position = rb.read + 1 := by
                rw [← hn]
                simp only [idxmod, ← hmm]
                exact hpos
              rw [hn2] at hdif
              exact wsub_ne_zero_of_between (rb.read + 1) rb.write
                (by omega) (by omega) hdif
          right
          refine ⟨k, hk1, hk, by simpa using hlen, hmask, ?_, ?_, ?_, ?_⟩
          · show rb.read ≤ rb.write + 1
            omega
          · show rb.write + 1 ≤ rb.read + 2 ^ k
            omega
          · intro p hp1 hp2
            have hp1' : rb.read ≤ p := hp1
            have hp2' : p < rb.write + 1 := hp2
            have hb' : p % 2 ^ k < (rb.nodes.set (rb.write &&& rb.mask)
                { position := rb.write + 1, data := item }).length := by
              simp only [List.length_set]
              rw [hlen]
              exact Nat.mod_lt _ (by omega)
            refine ⟨hb', ?_⟩
            show (rb.nodes.set (rb.write &&& rb.mask)
              { position := rb.write + 1, data := item })[p % 2 ^ k].position
              = p + 1
            rw [List.getElem_set]
            rcases Nat.lt_or_ge p rb.write with hplt | hpge
            · rw [if_neg (by
                rw [idxmod]
                exact (mod_ne_of_between p rb.write (2 ^ k) hplt
                  (by omega)).symm)]
              rcases hfullc p hp1' hplt with ⟨hb2, hpos2⟩
              exact hpos2
            · have hpe : p = rb.write := by omega
              subst hpe
              rw [if_pos (by rw [idxmod])]
          · intro p hp1 hp2
            have hp1' : rb.write + 1 ≤ p := hp1
            have hp2' : p < rb.read + 2 ^ k := hp2
            have hb' : p % 2 ^ k < (rb.nodes.set (rb.write &&& rb.mask)
                { position := rb.write + 1, data := item }).length := by
              simp only [List.length_set]
              rw [hlen]
              exact Nat.mod_lt _ (by omega)
            refine ⟨hb', ?_⟩
            show (rb.nodes.set (rb.write &&& rb.mask)
              { position := rb.write + 1, data := item })[p % 2 ^ k].position
              = p
            rw [List.getElem_set, if_neg (by
              rw [idxmod]
              exact mod_ne_of_between rb.write p (2 ^ k) (by omega) (by omega))]
            rcases hemptyc p (by omega) hp2' with ⟨hb2, hpos2⟩
            exact hpos2
      · by_cases hoff : off = true <;>
          simp only [put, List.get?_eq_getElem?, hd, hget, hdif, hoff,
            Nat.not_lt_zero, Bool.false_eq_true, Bool.true_eq_false, if_true,
            if_false, ite_true, ite_false] <;>
          exact hInv

theorem mpmc_Inv_poll (rb : RingBuffer α) (hInv : Inv rb) (t : Int)
    (e : Bool) : Inv (Poll rb t e).2 := by
  by_cases hd : rb.disposed = 1
  · simp only [Poll, hd, if_true]
    exact hInv
  · rcases hget : rb.nodes[rb.read &&& rb.mask]? with _ | n
    · simp only [Poll, List.get?_eq_getElem?, hd, hget, if_false, ite_false]
      exact hInv
    · have hidx : rb.read &&& rb.mask < rb.nodes.length := by
        rcases Nat.lt_or_ge (rb.read &&& rb.mask) rb.nodes.length with h | h
        · exact h
        · rw [List.getElem?_eq_none h] at hget
          cases hget
      have hn : rb.nodes[rb.read &&& rb.mask] = n := by
        rw [List.getElem?_eq_getElem hidx] at hget
        exact Option.some_injective _ hget
      by_cases hdif : wsub n.position (rb.read + 1) = 0
      · simp only [Poll, List.get?_eq_getElem?, hd, hget, hdif, if_true,
          if_false, ite_true, ite_false]
        rcases hInv with ⟨hnil, -, -⟩ |
          ⟨k, hk1, hk, hlen, hmask, hrw, hwc, hfullc, hemptyc⟩
        · exfalso
          rw [hnil] at hidx
          simp at hidx
        · have idxmod : rb.read &&& rb.mask = rb.read % 2 ^ k := by
            rw [hmask, and_two_pow_sub_one]
          have hp2 : (2 : Nat) ≤ 2 ^ k := by
            calc (2 : Nat) = 2 ^ 1 := rfl
            _ ≤ 2 ^ k := Nat.pow_le_pow_right (by omega) hk1
          have hku := pow_lt_u64 k hk
          have hlt : rb.read < rb.write := by
            rcases Nat.lt_or_ge rb.read rb.write with h | h
            · exact h
            · exfalso
              rcases hemptyc rb.read (by omega) (by omega) with ⟨hb, hpos⟩
              have hn2 : n.position = rb.read := by
                rw [← hn]
                simp only [idxmod]
                exact hpos
              rw [hn2] at hdif
              exact wsub_ne_zero_of_between rb.read (rb.read + 1) (by omega)
                (by omega) hdif
          right
          refine ⟨k, hk1, hk, by simpa using hlen, hmask, ?_, ?_, ?_, ?_⟩
          · show rb.read + 1 ≤ rb.write
            omega
          · show rb.write ≤ rb.read + 1 + 2 ^ k
            omega
          · intro p hp1 hp2
            have hp1' : rb.read + 1 ≤ p := hp1
            have hp2' : p < rb.write := hp2
            have hb' : p % 2 ^ k < (rb.nodes.set (rb.read &&& rb.mask)
                { position := rb.read + rb.mask + 1, data := n.data }).length := by
              simp only [List.length_set]
              rw [hlen]
              exact Nat.mod_lt _ (by omega)
            refine ⟨hb', ?_⟩
            show (rb.nodes.set (rb.read &&& rb.mask)
              { position := rb.read + rb.mask + 1, data := n.data })[p % 2 ^ k].position
              = p + 1
            rw [List.getElem_set, if_neg (by
              rw [idxmod]
              exact mod_ne_of_between rb.read p (2 ^ k) (by omega) (by omega))]
            rcases hfullc p (by omega) hp2' with ⟨hb2, hpos2⟩
            exact hpos2
          · intro p hp1 hp2
            have hp1' : rb.write ≤ p := hp1
            have hp2' : p < rb.read + 1 + 2 ^ k := hp2
            have hb' : p % 2 ^ k < (rb.nodes.set (rb.read &&& rb.mask)
                { position := rb.read + rb.mask + 1, data := n.data }).length := by
              simp only [List.length_set]
              rw [hlen]
              exact Nat.mod_lt _ (by omega)
            refine ⟨hb', ?_⟩
            show (rb.nodes.set (rb.read &&& rb.mask)
              { position := rb.read + rb.mask + 1, data := n.data })[p % 2 ^ k].position
              = p
            rcases Nat.lt_or_ge p (rb.read + 2 ^ k) with hplt | hpge
            · rw [List.getElem_set, if_neg (by
                rw [idxmod]
                exact mod_ne_of_between rb.read p (2 ^ k) (by omega)
                  (by omega))]
              rcases hemptyc p (by omega) hplt with ⟨hb2, hpos2⟩
              exact hpos2
            · have hpe : p = rb.read + 2 ^ k := by omega
              subst hpe
              rw [List.getElem_set, if_pos (by rw [idxmod, Nat.add_mod_right])]
              show rb.read + rb.mask + 1 = rb.read + 2 ^ k
              rw [hmask]
              omega
      · by_cases ht : 0 < t ∧ e = true <;>
          simp only [Poll, List.get?_eq_getElem?, hd, hget, hdif, ht,
            Nat.not_lt_zero, if_true, if_false, ite_true, ite_false] <;>
          exact hInv

theorem mpmc_Inv_dispose (rb : RingBuffer α) (hInv : Inv rb) :
    Inv (Dispose rb) := by
  unfold Dispose
  split
  · rcases hInv with ⟨hnil, hr, hw⟩ | ⟨k, hk1, hk, hlen, hmask, hrw, hwc, h7, h8⟩
    · exact Or.inl ⟨hnil, hr, hw⟩
    · exact Or.inr ⟨k, hk1, hk, hlen, hmask, hrw, hwc, h7, h8⟩
  · exact hInv

theorem mpmc_Inv_step (rb : RingBuffer α) (hInv : Inv rb) (op : Op α) :
    Inv (step rb op) := by
  cases op with
  | put a => exact mpmc_Inv_put rb hInv a false
  | offer a => exact mpmc_Inv_put rb hInv a true
  | poll t e => exact mpmc_Inv_poll rb hInv t e
  | get => exact mpmc_Inv_poll rb hInv 0 false
  | dispose => exact mpmc_Inv_dispose rb hInv

theorem mpmc_Inv_run (size : Nat) (hsz : size < u64) (ops : List (Op α)) :
    Inv (run size ops) := by
  unfold run
  have h : ∀ (l : List (Op α)) (rb : RingBuffer α), Inv rb →
      Inv (l.foldl step rb) := by
    intro l
    induction l with
    | nil => intro rb h; exact h
    | cons o l ih =>
      intro rb h
      exact ih _ (mpmc_Inv_step rb h o)
  exact h ops _ (mpmc_Inv_new size hsz)

end Mpmc

/-!
Claim theorems.
-/

/-- C1, counterexample to the claim as stated: on a fresh MPMC ring of
size 2 a `Poll` attempt at position 0 loads the slot sequence number 0,
which is lower than `pos + 1 = 1`; the claim says the operation aborts
with a panic, but it returns the ordinary `TimedOut` outcome with the
ring unchanged (the stale-sequence case falls into the retry branch
because the `uint64` difference wraps to a large positive value). -/
theorem C1_counterexample :
    ((Mpmc.NewRingBuffer (α := Nat) 2).nodes.get? 0).map Mpmc.node.position
      = some 0 ∧
    (Mpmc.NewRingBuffer (α := Nat) 2).read + 1 = 1 ∧
    Mpmc.Poll (Mpmc.NewRingBuffer (α := Nat) 2) 1 true
      = (PollOut.timedOut, Mpmc.NewRingBuffer (α := Nat) 2) := by
  refine ⟨by decide, by decide, by decide⟩

/-- C1, amended: the `dif < 0` comparison in `mpmc.go` is on unsigned
64-bit values and can never be true, so the `panic` branches are
unreachable: no `put`/`Offer` or `Poll`/`Get` ever panics, for any ring
state whatsoever.  An attempt that loads a sequence number lower than
`pos` (put) or `pos + 1` (get) — the ordinary full resp. empty condition
— takes the default reload-and-retry path instead. -/
theorem C1_amended_no_panic (α : Type) (rb : Mpmc.RingBuffer α)
    (item : Option α) (off : Bool) (t : Int) (e : Bool) :
    (Mpmc.put rb item off).1 ≠ .panicked ∧
      (Mpmc.Poll rb t e).1 ≠ .panicked := by
  constructor
  · by_cases hd : rb.disposed = 1
    · simp [Mpmc.put, hd]
    · rcases hget : rb.nodes[rb.write &&& rb.mask]? with _ | n
      · simp [Mpmc.put, hd, hget]
      · by_cases hdif : wsub n.position rb.write = 0
        · simp [Mpmc.put, hd, hget, hdif]
        · by_cases hoff : off = true <;>
            simp [Mpmc.put, hd, hget, hdif, hoff]
  · by_cases hd : rb.disposed = 1
    · simp [Mpmc.Poll, hd]
    · rcases hget : rb.nodes[rb.read &&& rb.mask]? with _ | n
      · simp [Mpmc.Poll, hd, hget]
      · by_cases hdif : wsub n.position (rb.read + 1) = 0
        · simp [Mpmc.Poll, hd, hget, hdif]
        · by_cases ht : 0 < t ∧ e = true <;>
            simp [Mpmc.Poll, hd, hget, hdif, ht]

/-- C2, counterexample to the claim as stated: on an MPMC ring, after a
successful `Poll` the dequeued slot still holds the payload reference
(`some 7`), even though the slot's sequence has been advanced so that a
producer may claim it — MPMC does not clear the slot. -/
theorem C2_counterexample :
    (Mpmc.Poll
      (Mpmc.put (Mpmc.NewRingBuffer (α := Nat) 2) (some 7) false).2
      0 false).1 = PollOut.got (some 7) ∧
    ((Mpmc.Poll
      (Mpmc.put (Mpmc.NewRingBuffer (α := Nat) 2) (some 7) false).2
      0 false).2.nodes.get? 0).map Mpmc.node.data = some (some 7) := by
  refine ⟨by decide, by decide⟩

/-- C2, amended: only SPSC and BSPSC clear the dequeued slot's payload
reference (`n.data = nil`) after a successful `Poll`; MPMC and DSPSC
leave the payload reference in the slot (they only advance the sequence
number resp. reset the ready flag). -/
theorem C2_amended_clearing :
    (∀ (α : Type) (rb : Spsc.RingBuffer α) (t : Int) (e : Bool)
      (a : Option α), (Spsc.Poll rb t e).1 = .got a →
      Spsc.slotData (Spsc.Poll rb t e).2 rb.read = none) ∧
    (∀ (α : Type) (rb : Bspsc.RingBuffer α) (t : Int) (e : Bool)
      (a : Option α), (Bspsc.Poll rb t e).1 = .got a →
      Bspsc.slotData (Bspsc.Poll rb t e).2 rb.readCache = none) ∧
    (∀ (α : Type) (rb : Mpmc.RingBuffer α) (t : Int) (e : Bool)
      (a : Option α), (Mpmc.Poll rb t e).1 = .got a →
      Mpmc.slotData (Mpmc.Poll rb t e).2 rb.read = a) ∧
    (∀ (α : Type) (rb : Dspsc.RingBuffer α) (t : Int) (e : Bool)
      (a : Option α), (Dspsc.Poll rb t e).1 = .got a →
      Dspsc.slotData (Dspsc.Poll rb t e).2 rb.read = a) := by
  refine ⟨?_, ?_, ?_, ?_⟩
  · intro α rb t e a h
    by_cases hd : rb.disposed > 0
    · simp [Spsc.Poll, hd] at h
    · by_cases hne : rb.read = rb.write
      · by_cases ht : 0 < t ∧ e = true <;> simp [Spsc.Poll, hd, hne, ht] at h
      · rcases hget : rb.nodes[rb.read &&& rb.mask]? with _ | n
        · simp [Spsc.Poll, hd, hne, hget] at h
        · have hidx : rb.read &&& rb.mask < rb.nodes.length := by
            rcases Nat.lt_or_ge (rb.read &&& rb.mask) rb.nodes.length with
              h2 | h2
            · exact h2
            · rw [List.getElem?_eq_none h2] at hget
              cases hget
          simp only [Spsc.Poll, List.get?_eq_getElem?, hd, hne, hget,
            if_true, if_false, ite_true, ite_false, ne_eq,
            not_false_eq_true]
          unfold Spsc.slotData
          dsimp only
          simp only [List.get?_eq_getElem?]
          rw [List.getElem?_set_eq (by simpa using hidx)]
          rfl
  · intro α rb t e a h
    by_cases hd : rb.disposed > 0
    · simp [Bspsc.Poll, hd] at h
    · by_cases hne : rb.readCache = rb.write
      · by_cases hpub : rb.write > rb.read <;>
          by_cases ht : 0 < t ∧ e = true <;>
          simp [Bspsc.Poll, hd, hne, hpub, ht] at h
      · rcases hget : rb.nodes[rb.readCache &&& rb.mask]? with _ | n
        · simp [Bspsc.Poll, hd, hne, hget] at h
        · have hidx : rb.readCache &&& rb.mask < rb.nodes.length := by
            rcases Nat.lt_or_ge (rb.readCache &&& rb.mask) rb.nodes.length
              with h2 | h2
            · exact h2
            · rw [List.getElem?_eq_none h2] at hget
              cases hget
          simp only [Bspsc.Poll, List.get?_eq_getElem?, hd, hne, hget,
            if_true, if_false, ite_true, ite_false, ne_eq,
            not_false_eq_true]
          by_cases hb : rb.readCache + 1 - rb.read ≥ rb.maxbatch <;>
            simp only [hb, if_true, if_false, ite_true, ite_false] <;>
            (unfold Bspsc.slotData
             dsimp only
             simp only [List.get?_eq_getElem?]
             rw [List.getElem?_set_eq (by simpa using hidx)]
             rfl)
  · intro α rb t e a h
    by_cases hd : rb.disposed = 1
    · simp [Mpmc.Poll, hd] at h
    · rcases hget : rb.nodes[rb.read &&& rb.mask]? with _ | n
      · simp [Mpmc.Poll, hd, hget] at h
      · have hidx : rb.read &&& rb.mask < rb.nodes.length := by
          rcases Nat.lt_or_ge (rb.read &&& rb.mask) rb.nodes.length with
            h2 | h2
          · exact h2
          · rw [List.getElem?_eq_none h2] at hget
            cases hget
        by_cases hdif : wsub n.position (rb.read + 1) = 0
        · have ha : n.data = a := by
            simp [Mpmc.Poll, hd, hget, hdif] at h
            exact h
          simp only [Mpmc.Poll, List.get?_eq_getElem?, hd, hget, hdif,
            if_true, if_false, ite_true, ite_false]
          unfold Mpmc.slotData
          dsimp only
          simp only [List.get?_eq_getElem?]
          rw [List.getElem?_set_eq (by simpa using hidx)]
          simpa using ha
        · by_cases ht : 0 < t ∧ e = true <;>
            simp [Mpmc.Poll, hd, hget, hdif, ht] at h
  · intro α rb t e a h
    rcases hget : rb.nodes[rb.read &&& rb.mask]? with _ | n
    · simp [Dspsc.Poll, hget] at h
    · have hidx : rb.read &&& rb.mask < rb.nodes.length := by
        rcases Nat.lt_or_ge (rb.read &&& rb.mask) rb.nodes.length with
          h2 | h2
        · exact h2
        · rw [List.getElem?_eq_none h2] at hget
          cases hget
      by_cases hd : rb.disposed = 1
      · simp [Dspsc.Poll, hget, hd] at h
      · by_cases hr : n.ready = 1
        · have ha : n.data = a := by
            simp [Dspsc.Poll, hget, hd, hr] at h
            exact h
          simp only [Dspsc.Poll, List.get?_eq_getElem?, hget, hd, hr,
            if_true, if_false, ite_true, ite_false]
          unfold Dspsc.slotData
          dsimp only
          simp only [List.get?_eq_getElem?]
          rw [List.getElem?_set_eq (by simpa using hidx)]
          simpa using ha
        · by_cases ht : 0 < t ∧ e = true <;>
            simp [Dspsc.Poll, hget, hd, hr, ht] at h

/-- C2, witness: the amended clearing behaviour at concrete rings — an
SPSC and a BSPSC poll leave `nil` in the slot, an MPMC and a DSPSC poll
leave the dequeued payload in the slot. -/
theorem C2_witness :
    Spsc.slotData
      (Spsc.Poll (Spsc.run (α := Nat) 2 [.put (some 5)]) 0 false).2
      (Spsc.run (α := Nat) 2 [.put (some 5)]).read = none ∧
    Bspsc.slotData
      (Bspsc.Poll (Bspsc.run (α := Nat) 2
        [.put (some 5), .put (some 6), .offer (some 7)]) 0 false).2
      (Bspsc.run (α := Nat) 2
        [.put (some 5), .put (some 6), .offer (some 7)]).readCache = none ∧
    Mpmc.slotData
      (Mpmc.Poll (Mpmc.run (α := Nat) 2 [.put (some 5)]) 0 false).2
      (Mpmc.run (α := Nat) 2 [.put (some 5)]).read = some 5 ∧
    Dspsc.slotData
      (Dspsc.Poll (Dspsc.run (α := Nat) 2 [.put (some 5)]) 0 false).2
      (Dspsc.run (α := Nat) 2 [.put (some 5)]).read = some 5 := by
  refine ⟨C2_amended_clearing.1 Nat _ 0 false (some 5) (by decide),
    C2_amended_clearing.2.1 Nat _ 0 false (some 5) (by decide),
    C2_amended_clearing.2.2.1 Nat _ 0 false (some 5) (by decide),
    C2_amended_clearing.2.2.2 Nat _ 0 false (some 5) (by decide)⟩

/-- C3, counterexample to the claim as stated: on a BSPSC ring of
capacity 2, after filling it (which publishes `write` via the
offer-on-full path) and draining both items, `Offer` returns `false`
although the queue is empty — the non-disposed ring holds zero items
(`writeCache = readCache`, both slots `nil`), not `capacity` items.
`false` is not a fullness guarantee for the batched single-producer
variant. -/
theorem C3_counterexample :
    (Bspsc.Offer (Bspsc.run (α := Nat) 2
      [.put (some 1), .put (some 2), .offer (some 3), .get, .get])
      (some 4)).1 = .full ∧
    (Bspsc.run (α := Nat) 2
      [.put (some 1), .put (some 2), .offer (some 3), .get, .get]).disposed
      = 0 ∧
    (Bspsc.run (α := Nat) 2
      [.put (some 1), .put (some 2), .offer (some 3), .get, .get]).writeCache
      = (Bspsc.run (α := Nat) 2
      [.put (some 1), .put (some 2), .offer (some 3), .get, .get]).readCache ∧
    ((Bspsc.run (α := Nat) 2
      [.put (some 1), .put (some 2), .offer (some 3), .get, .get]).nodes.map
      Bspsc.node.data) = [none, none] ∧
    Bspsc.Cap (Bspsc.run (α := Nat) 2
      [.put (some 1), .put (some 2), .offer (some 3), .get, .get]) = 2 := by
  refine ⟨by decide, by decide, by decide, by decide, by decide⟩

/-- C3, amended: for SPSC, and for DSPSC on a ring with a nonempty slot
array, in every reachable non-disposed state `Offer` returns `false`
exactly when the queue holds `capacity` items (`write = read +
capacity`), so `false` guarantees fullness; for BSPSC a full queue
(`writeCache = readCache + capacity`) still makes `Offer` return
`false`, but `false` does not guarantee fullness (see the
counterexample: the consumer's drained positions may be unpublished). -/
theorem C3_amended_offer_full :
    (∀ (α : Type) (size : Nat) (ops : List (Op α)) (item : Option α),
      (Spsc.run size ops).disposed = 0 →
      ((Spsc.Offer (Spsc.run size ops) item).1 = .full ↔
        (Spsc.run size ops).write
          = (Spsc.run size ops).read + Spsc.Cap (Spsc.run size ops))) ∧
    (∀ (α : Type) (size : Nat) (ops : List (Op α)) (item : Option α),
      (Dspsc.run size ops).disposed = 0 →
      (Dspsc.run size ops).nodes ≠ [] →
      ((Dspsc.Offer (Dspsc.run size ops) item).1 = .full ↔
        (Dspsc.run size ops).write
          = (Dspsc.run size ops).read + Dspsc.Cap (Dspsc.run size ops))) ∧
    (∀ (α : Type) (size : Nat) (ops : List (Op α)) (item : Option α),
      (Bspsc.run size ops).disposed = 0 →
      (Bspsc.run size ops).writeCache
        = (Bspsc.run size ops).readCache + Bspsc.Cap (Bspsc.run size ops) →
      (Bspsc.Offer (Bspsc.run size ops) item).1 = .full) := by
  refine ⟨?_, ?_, ?_⟩
  · intro α size ops item hd
    exact Spsc.offer_full_iff _ (Spsc.Inv_run size ops) hd item
  · intro α size ops item hd hne
    exact Dspsc.dspsc_offer_full_iff _ (Dspsc.dspsc_Inv_run size ops) hd
      hne item
  · intro α size ops item hd hfull
    exact Bspsc.bspsc_offer_of_full _ (Bspsc.bspsc_Inv_run size ops) hd
      hfull item

/-- C3, witness: the amended statement instantiated at concrete rings —
a full SPSC ring of capacity 1, a full DSPSC ring of capacity 1 and a
full BSPSC ring of capacity 2. -/
theorem C3_witness :
    ((Spsc.Offer (Spsc.run (α := Nat) 1 [.put (some 0)]) (some 1)).1 = .full ↔
      (Spsc.run (α := Nat) 1 [.put (some 0)]).write
        = (Spsc.run (α := Nat) 1 [.put (some 0)]).read
          + Spsc.Cap (Spsc.run (α := Nat) 1 [.put (some 0)])) ∧
    ((Dspsc.Offer (Dspsc.run (α := Nat) 1 [.put (some 0)]) (some 1)).1
        = .full ↔
      (Dspsc.run (α := Nat) 1 [.put (some 0)]).write
        = (Dspsc.run (α := Nat) 1 [.put (some 0)]).read
          + Dspsc.Cap (Dspsc.run (α := Nat) 1 [.put (some 0)])) ∧
    (Bspsc.Offer (Bspsc.run (α := Nat) 2 [.put (some 0), .put (some 1)])
      (some 2)).1 = .full := by
  refine ⟨C3_amended_offer_full.1 Nat 1 [.put (some 0)] (some 1) (by decide),
    C3_amended_offer_full.2.1 Nat 1 [.put (some 0)] (some 1) (by decide)
      (by decide),
    C3_amended_offer_full.2.2 Nat 2 [.put (some 0), .put (some 1)] (some 2)
      (by decide) (by decide)⟩

/-- C4, counterexample to the claim as stated: on a DSPSC ring
constructed with size 0 and then disposed, `Put` does not return the
Closed error — the slot access at function entry is out of bounds (a Go
runtime fault) before the dispose flag is ever read. -/
theorem C4_counterexample :
    (Dspsc.Dispose (Dspsc.NewRingBuffer (α := Nat) 0)).disposed = 1 ∧
    (Dspsc.put (Dspsc.Dispose (Dspsc.NewRingBuffer (α := Nat) 0))
      (some 1) false).1 = .oob := by
  refine ⟨by decide, by decide⟩

/-- C4, amended: once the dispose flag is set, every `Put`, `Offer`,
`Get` or `Poll` returns the Closed error and leaves the ring unchanged —
except on a DSPSC ring whose entry slot access is out of bounds (only
possible when the slot array is empty, e.g. a size-0 construction),
where the access faults before the dispose flag is read. -/
theorem C4_amended_closed :
    (∀ (α : Type) (rb : Spsc.RingBuffer α) (item : Option α) (off : Bool)
      (t : Int) (e : Bool), rb.disposed = 1 →
      Spsc.put rb item off = (.closed, rb) ∧
        Spsc.Poll rb t e = (.closed, rb)) ∧
    (∀ (α : Type) (rb : Bspsc.RingBuffer α) (item : Option α) (off : Bool)
      (t : Int) (e : Bool), rb.disposed = 1 →
      Bspsc.put rb item off = (.closed, rb) ∧
        Bspsc.Poll rb t e = (.closed, rb)) ∧
    (∀ (α : Type) (rb : Mpmc.RingBuffer α) (item : Option α) (off : Bool)
      (t : Int) (e : Bool), rb.disposed = 1 →
      Mpmc.put rb item off = (.closed, rb) ∧
        Mpmc.Poll rb t e = (.closed, rb)) ∧
    (∀ (α : Type) (rb : Dspsc.RingBuffer α) (item : Option α) (off : Bool)
      (t : Int) (e : Bool), rb.disposed = 1 →
      (rb.write &&& rb.mask < rb.nodes.length →
        Dspsc.put rb item off = (.closed, rb)) ∧
      (rb.read &&& rb.mask < rb.nodes.length →
        Dspsc.Poll rb t e = (.closed, rb))) := by
  refine ⟨?_, ?_, ?_, ?_⟩
  · intro α rb item off t e hd
    have hd' : rb.disposed > 0 := by omega
    exact ⟨by simp [Spsc.put, hd'], by simp [Spsc.Poll, hd']⟩
  · intro α rb item off t e hd
    have hd' : rb.disposed > 0 := by omega
    exact ⟨by simp [Bspsc.put, hd'], by simp [Bspsc.Poll, hd']⟩
  · intro α rb item off t e hd
    exact ⟨by simp [Mpmc.put, hd], by simp [Mpmc.Poll, hd]⟩
  · intro α rb item off t e hd
    constructor
    · intro hidx
      have hget := List.getElem?_eq_getElem hidx
      simp [Dspsc.put, hget, hd]
    · intro hidx
      have hget := List.getElem?_eq_getElem hidx
      simp [Dspsc.Poll, hget, hd]

/-- C4, witness: disposed rings of every variant at capacity 2 return
Closed with the state unchanged, for `put` and `Poll`. -/
theorem C4_witness :
    (Spsc.put (Spsc.run (α := Nat) 2 [.dispose]) (some 1) false
        = (.closed, Spsc.run (α := Nat) 2 [.dispose]) ∧
      Spsc.Poll (Spsc.run (α := Nat) 2 [.dispose]) 1 true
        = (.closed, Spsc.run (α := Nat) 2 [.dispose])) ∧
    (Bspsc.put (Bspsc.run (α := Nat) 2 [.dispose]) (some 1) false
        = (.closed, Bspsc.run (α := Nat) 2 [.dispose]) ∧
      Bspsc.Poll (Bspsc.run (α := Nat) 2 [.dispose]) 1 true
        = (.closed, Bspsc.run (α := Nat) 2 [.dispose])) ∧
    (Mpmc.put (Mpmc.run (α := Nat) 2 [.dispose]) (some 1) false
        = (.closed, Mpmc.run (α := Nat) 2 [.dispose]) ∧
      Mpmc.Poll (Mpmc.run (α := Nat) 2 [.dispose]) 1 true
        = (.closed, Mpmc.run (α := Nat) 2 [.dispose])) ∧
    (Dspsc.put (Dspsc.run (α := Nat) 2 [.dispose]) (some 1) false
        = (.closed, Dspsc.run (α := Nat) 2 [.dispose]) ∧
      Dspsc.Poll (Dspsc.run (α := Nat) 2 [.dispose]) 1 true
        = (.closed, Dspsc.run (α := Nat) 2 [.dispose])) := by
  refine ⟨C4_amended_closed.1 Nat _ (some 1) false 1 true (by decide),
    C4_amended_closed.2.1 Nat _ (some 1) false 1 true (by decide),
    C4_amended_closed.2.2.1 Nat _ (some 1) false 1 true (by decide), ?_⟩
  have h := C4_amended_closed.2.2.2 Nat (Dspsc.run (α := Nat) 2 [.dispose])
    (some 1) false 1 true (by decide)
  exact ⟨h.1 (by decide), h.2 (by decide)⟩

/-- C5, counterexample to the claim as stated: constructing an SPSC ring
with size 0 yields capacity 0, which is not the least power of two at
least 0 (that would be 1) — `roundUp` wraps `0 - 1` on `uint64` and
returns 0. -/
theorem C5_counterexample :
    Spsc.Cap (Spsc.NewRingBuffer (α := Nat) 0) = 0 ∧
    ¬ IsLeastPow2Ge 0 (Spsc.Cap (Spsc.NewRingBuffer (α := Nat) 0)) := by
  have hc : Spsc.Cap (Spsc.NewRingBuffer (α := Nat) 0) = 0 := by decide
  refine ⟨hc, ?_⟩
  rintro ⟨⟨k, hk⟩, -, -⟩
  rw [hc] at hk
  have := Nat.pos_pow_of_pos k (show 0 < 2 by omega)
  omega

/-- C5, amended: for every construction size `n` with `1 ≤ n ≤ 2^63`,
the capacity is the least power of two at least `n` for SPSC, DSPSC and
BSPSC, and the least power of two at least `max n 2` for MPMC; `new(5)`
gives 8 everywhere, `new(1)` gives 1 for the SPSC family and 2 for MPMC.
(For `n = 0` the SPSC family wraps to capacity 0 — see the
counterexample — while MPMC still yields 2.) -/
theorem C5_amended_capacity (n : Nat) (h1 : 1 ≤ n) (h2 : n ≤ 2 ^ 63) :
    IsLeastPow2Ge n (Spsc.Cap (Spsc.NewRingBuffer (α := Nat) n)) ∧
    IsLeastPow2Ge n (Dspsc.Cap (Dspsc.NewRingBuffer (α := Nat) n)) ∧
    IsLeastPow2Ge n (Bspsc.Cap (Bspsc.NewRingBuffer (α := Nat) n)) ∧
    IsLeastPow2Ge (max n 2) (Mpmc.Cap (Mpmc.NewRingBuffer (α := Nat) n)) ∧
    Spsc.Cap (Spsc.NewRingBuffer (α := Nat) 5) = 8 ∧
    Dspsc.Cap (Dspsc.NewRingBuffer (α := Nat) 5) = 8 ∧
    Bspsc.Cap (Bspsc.NewRingBuffer (α := Nat) 5) = 8 ∧
    Mpmc.Cap (Mpmc.NewRingBuffer (α := Nat) 5) = 8 ∧
    Spsc.Cap (Spsc.NewRingBuffer (α := Nat) 1) = 1 ∧
    Dspsc.Cap (Dspsc.NewRingBuffer (α := Nat) 1) = 1 ∧
    Bspsc.Cap (Bspsc.NewRingBuffer (α := Nat) 1) = 1 ∧
    Mpmc.Cap (Mpmc.NewRingBuffer (α := Nat) 1) = 2 ∧
    Mpmc.Cap (Mpmc.NewRingBuffer (α := Nat) 0) = 2 := by
  have hspsc : Spsc.Cap (Spsc.NewRingBuffer (α := Nat) n) = roundUp n :=
    Spsc.length_nodes_new n
  have hdspsc : Dspsc.Cap (Dspsc.NewRingBuffer (α := Nat) n) = roundUp n :=
    Dspsc.dspsc_length_new n
  have hbspsc : Bspsc.Cap (Bspsc.NewRingBuffer (α := Nat) n) = roundUp n :=
    Bspsc.bspsc_length_new n
  have hmpmc0 : Mpmc.Cap (Mpmc.NewRingBuffer (α := Nat) n)
      = roundUp (if n < Mpmc.minSize then Mpmc.minSize else n) :=
    Mpmc.mpmc_length_new n
  have hmpmc : Mpmc.Cap (Mpmc.NewRingBuffer (α := Nat) n)
      = roundUp (max n 2) := by
    rw [hmpmc0]
    congr 1
    unfold Mpmc.minSize
    rcases Nat.lt_or_ge n 2 with h | h
    · rw [if_pos h]
      omega
    · rw [if_neg (by omega)]
      omega
  refine ⟨?_, ?_, ?_, ?_, by decide, by decide, by decide, by decide,
    by decide, by decide, by decide, by decide, by decide⟩
  · rw [hspsc]
    exact leastPow2_roundUp n h1 h2
  · rw [hdspsc]
    exact leastPow2_roundUp n h1 h2
  · rw [hbspsc]
    exact leastPow2_roundUp n h1 h2
  · rw [hmpmc]
    apply leastPow2_roundUp
    · omega
    · have : (2 : Nat) ≤ 2 ^ 63 := by decide
      omega

/-- C5, witness: the amended capacity law at the concrete size 5. -/
theorem C5_witness :
    IsLeastPow2Ge 5 (Spsc.Cap (Spsc.NewRingBuffer (α := Nat) 5)) ∧
    IsLeastPow2Ge 5 (Dspsc.Cap (Dspsc.NewRingBuffer (α := Nat) 5)) ∧
    IsLeastPow2Ge 5 (Bspsc.Cap (Bspsc.NewRingBuffer (α := Nat) 5)) ∧
    IsLeastPow2Ge (max 5 2) (Mpmc.Cap (Mpmc.NewRingBuffer (α := Nat) 5)) := by
  have h := C5_amended_capacity 5 (by decide) (by decide)
  exact ⟨h.1, h.2.1, h.2.2.1, h.2.2.2.1⟩

/-- C6: the concrete fill-and-drain scenario on an SPSC ring of
capacity 4 (four `Put`s succeed, `Offer(5)` is refused, four `Get`s
return 1,2,3,4 in order), the general FIFO law for SPSC and DSPSC (for
any construction size `1 ≤ size ≤ 2^63` and any batch `xs` that fits,
filling a fresh ring with `xs` succeeds and draining returns exactly
`xs` in order), and the same fill-and-drain instance for BSPSC (whose
`write` counter is published by the refused `Offer`). -/
theorem C6_fifo :
    (Spsc.fill (Spsc.NewRingBuffer (α := Nat) 4) [1, 2, 3, 4]
        = some (Spsc.run (α := Nat) 4
          [.put (some 1), .put (some 2), .put (some 3), .put (some 4)]) ∧
      (Spsc.Offer (Spsc.run (α := Nat) 4
          [.put (some 1), .put (some 2), .put (some 3), .put (some 4)])
          (some 5)).1 = .full ∧
      Spsc.drainN (Spsc.run (α := Nat) 4
          [.put (some 1), .put (some 2), .put (some 3), .put (some 4)]) 4
        = [.got (some 1), .got (some 2), .got (some 3), .got (some 4)]) ∧
    (∀ (α : Type) (size : Nat) (xs : List α), 1 ≤ size → size ≤ 2 ^ 63 →
      xs.length ≤ Spsc.Cap (Spsc.NewRingBuffer (α := α) size) →
      ∃ st, Spsc.fill (Spsc.NewRingBuffer (α := α) size) xs = some st ∧
        Spsc.drainN st xs.length = xs.map fun x => PollOut.got (some x)) ∧
    (∀ (α : Type) (size : Nat) (xs : List α), 1 ≤ size → size ≤ 2 ^ 63 →
      xs.length ≤ Dspsc.Cap (Dspsc.NewRingBuffer (α := α) size) →
      ∃ st, Dspsc.fill (Dspsc.NewRingBuffer (α := α) size) xs = some st ∧
        Dspsc.drainN st xs.length = xs.map fun x => PollOut.got (some x)) ∧
    ((Bspsc.Offer (Bspsc.run (α := Nat) 4
        [.put (some 1), .put (some 2), .put (some 3), .put (some 4)])
        (some 5)).1 = .full ∧
      Bspsc.drainN (Bspsc.run (α := Nat) 4
        [.put (some 1), .put (some 2), .put (some 3), .put (some 4),
          .offer (some 5)]) 4
        = [.got (some 1), .got (some 2), .got (some 3), .got (some 4)]) := by
  refine ⟨⟨by decide, by decide, by decide⟩, ?_, ?_, by decide, by decide⟩
  · intro α size xs h1 h2 hfit
    have hRep := Spsc.Rep_new (α := α) size h1 h2
    rcases Spsc.fill_spec xs _ [] hRep (by
      show List.length [] + xs.length ≤ _
      simp only [List.length_nil, Nat.zero_add]
      exact hfit) with ⟨st, hfill, hRep'⟩
    exact ⟨st, hfill, Spsc.drain_spec xs st (by simpa using hRep')⟩
  · intro α size xs h1 h2 hfit
    have hRep := Dspsc.dspsc_Rep_new (α := α) size h1 h2
    rcases Dspsc.dspsc_fill_spec xs _ [] hRep (by
      show List.length [] + xs.length ≤ _
      simp only [List.length_nil, Nat.zero_add]
      exact hfit) with ⟨st, hfill, hRep'⟩
    exact ⟨st, hfill,
      Dspsc.dspsc_drain_spec xs st (by simpa using hRep')⟩

/-- C6, witness: the general FIFO law instantiated at size 4 with the
batch `[9, 8]` for SPSC and DSPSC. -/
theorem C6_witness :
    (∃ st, Spsc.fill (Spsc.NewRingBuffer (α := Nat) 4) [9, 8] = some st ∧
      Spsc.drainN st ([9, 8] : List Nat).length
        = ([9, 8] : List Nat).map fun x => PollOut.got (some x)) ∧
    (∃ st, Dspsc.fill (Dspsc.NewRingBuffer (α := Nat) 4) [9, 8] = some st ∧
      Dspsc.drainN st ([9, 8] : List Nat).length
        = ([9, 8] : List Nat).map fun x => PollOut.got (some x)) :=
  ⟨C6_fifo.2.1 Nat 4 [9, 8] (by decide) (by decide) (by decide),
    C6_fifo.2.2.1 Nat 4 [9, 8] (by decide) (by decide) (by decide)⟩

/-- C7, counterexample to the claim as stated: a BSPSC `Poll` that times
out is not free of side effects — on a drained ring whose consumer has
unpublished progress, the empty-queue branch publishes `readCache` into
the shared `read` counter (0 becomes 2) before returning TimedOut. -/
theorem C7_counterexample :
    (Bspsc.Poll (Bspsc.run (α := Nat) 2
      [.put (some 1), .put (some 2), .offer (some 3), .get, .get])
      1 true).1 = .timedOut ∧
    (Bspsc.run (α := Nat) 2
      [.put (some 1), .put (some 2), .offer (some 3), .get, .get]).read
      = 0 ∧
    (Bspsc.Poll (Bspsc.run (α := Nat) 2
      [.put (some 1), .put (some 2), .offer (some 3), .get, .get])
      1 true).2.read = 2 := by
  refine ⟨by decide, by decide, by decide⟩

/-- C7, amended: in every variant `Poll` returns TimedOut only when the
timeout argument is positive and the deadline (measured from the single
start taken at call entry) has passed; SPSC, DSPSC and MPMC then leave
the ring unchanged, while BSPSC may additionally publish the consumer's
private `readCache` into the shared `read` counter before timing out. -/
theorem C7_amended_timeout :
    (∀ (α : Type) (rb : Spsc.RingBuffer α) (t : Int) (e : Bool),
      (Spsc.Poll rb t e).1 = .timedOut →
      0 < t ∧ e = true ∧ (Spsc.Poll rb t e).2 = rb) ∧
    (∀ (α : Type) (rb : Dspsc.RingBuffer α) (t : Int) (e : Bool),
      (Dspsc.Poll rb t e).1 = .timedOut →
      0 < t ∧ e = true ∧ (Dspsc.Poll rb t e).2 = rb) ∧
    (∀ (α : Type) (rb : Mpmc.RingBuffer α) (t : Int) (e : Bool),
      (Mpmc.Poll rb t e).1 = .timedOut →
      0 < t ∧ e = true ∧ (Mpmc.Poll rb t e).2 = rb) ∧
    (∀ (α : Type) (rb : Bspsc.RingBuffer α) (t : Int) (e : Bool),
      (Bspsc.Poll rb t e).1 = .timedOut →
      0 < t ∧ e = true ∧
        ((Bspsc.Poll rb t e).2 = rb ∨
          (Bspsc.Poll rb t e).2 = { rb with read := rb.readCache })) := by
  refine ⟨?_, ?_, ?_, ?_⟩
  · intro α rb t e h
    by_cases hd : rb.disposed > 0
    · simp [Spsc.Poll, hd] at h
    · by_cases hne : rb.read = rb.write
      · by_cases ht : 0 < t ∧ e = true
        · exact ⟨ht.1, ht.2, by simp [Spsc.Poll, hd, hne, ht]⟩
        · simp [Spsc.Poll, hd, hne, ht] at h
      · rcases hget : rb.nodes[rb.read &&& rb.mask]? with _ | n <;>
          simp [Spsc.Poll, hd, hne, hget] at h
  · intro α rb t e h
    rcases hget : rb.nodes[rb.read &&& rb.mask]? with _ | n
    · simp [Dspsc.Poll, hget] at h
    · by_cases hd : rb.disposed = 1
      · simp [Dspsc.Poll, hget, hd] at h
      · by_cases hr : n.ready = 1
        · simp [Dspsc.Poll, hget, hd, hr] at h
        · by_cases ht : 0 < t ∧ e = true
          · exact ⟨ht.1, ht.2, by simp [Dspsc.Poll, hget, hd, hr, ht]⟩
          · simp [Dspsc.Poll, hget, hd, hr, ht] at h
  · intro α rb t e h
    by_cases hd : rb.disposed = 1
    · simp [Mpmc.Poll, hd] at h
    · rcases hget : rb.nodes[rb.read &&& rb.mask]? with _ | n
      · simp [Mpmc.Poll, hd, hget] at h
      · by_cases hdif : wsub n.position (rb.read + 1) = 0
        · simp [Mpmc.Poll, hd, hget, hdif] at h
        · by_cases ht : 0 < t ∧ e = true
          · exact ⟨ht.1, ht.2, by simp [Mpmc.Poll, hd, hget, hdif, ht]⟩
          · simp [Mpmc.Poll, hd, hget, hdif, ht] at h
  · intro α rb t e h
    by_cases hd : rb.disposed > 0
    · simp [Bspsc.Poll, hd] at h
    · by_cases hne : rb.readCache = rb.write
      · by_cases hpub : rb.write > rb.read
        · by_cases ht : 0 < t ∧ e = true
          · refine ⟨ht.1, ht.2, Or.inr ?_⟩
            simp [Bspsc.Poll, hd, hne, hpub, ht]
          · simp [Bspsc.Poll, hd, hne, hpub, ht] at h
        · by_cases ht : 0 < t ∧ e = true
          · exact ⟨ht.1, ht.2, Or.inl
              (by simp [Bspsc.Poll, hd, hne, hpub, ht])⟩
          · simp [Bspsc.Poll, hd, hne, hpub, ht] at h
      · rcases hget : rb.nodes[rb.readCache &&& rb.mask]? with _ | n
        · simp [Bspsc.Poll, hd, hne, hget] at h
        · by_cases hb : rb.readCache + 1 - rb.read ≥ rb.maxbatch <;>
            simp [Bspsc.Poll, hd, hne, hget, hb] at h

/-- C7, witness: polling an empty ring of each variant with a positive,
expired timeout returns TimedOut; the amended no-side-effect (resp.
publish-only) conclusions hold at these concrete rings. -/
theorem C7_witness :
    (0 < (1 : Int) ∧ true = true ∧
      (Spsc.Poll (Spsc.NewRingBuffer (α := Nat) 2) 1 true).2
        = Spsc.NewRingBuffer (α := Nat) 2) ∧
    (0 < (1 : Int) ∧ true = true ∧
      (Dspsc.Poll (Dspsc.NewRingBuffer (α := Nat) 2) 1 true).2
        = Dspsc.NewRingBuffer (α := Nat) 2) ∧
    (0 < (1 : Int) ∧ true = true ∧
      (Mpmc.Poll (Mpmc.NewRingBuffer (α := Nat) 2) 1 true).2
        = Mpmc.NewRingBuffer (α := Nat) 2) ∧
    (0 < (1 : Int) ∧ true = true ∧
      ((Bspsc.Poll (Bspsc.NewRingBuffer (α := Nat) 2) 1 true).2
          = Bspsc.NewRingBuffer (α := Nat) 2 ∨
        (Bspsc.Poll (Bspsc.NewRingBuffer (α := Nat) 2) 1 true).2
          = { Bspsc.NewRingBuffer (α := Nat) 2 with
              read := (Bspsc.NewRingBuffer (α := Nat) 2).readCache })) :=
  ⟨C7_amended_timeout.1 Nat (Spsc.NewRingBuffer 2) 1 true (by decide),
    C7_amended_timeout.2.1 Nat (Dspsc.NewRingBuffer 2) 1 true (by decide),
    C7_amended_timeout.2.2.1 Nat (Mpmc.NewRingBuffer 2) 1 true (by decide),
    C7_amended_timeout.2.2.2 Nat (Bspsc.NewRingBuffer 2) 1 true (by decide)⟩

/-- C8: in every variant, every sequence of API calls starting from a
freshly constructed ring (any `uint64` construction size) preserves
`read ≤ write` and `write − read ≤ capacity`; for BSPSC the shared
`read`/`write` counters are meant. -/
theorem C8_invariant (α : Type) (size : Nat) (hsz : size < u64)
    (ops : List (Op α)) :
    ((Spsc.run size ops).read ≤ (Spsc.run size ops).write ∧
      (Spsc.run size ops).write - (Spsc.run size ops).read
        ≤ Spsc.Cap (Spsc.run size ops)) ∧
    ((Bspsc.run size ops).read ≤ (Bspsc.run size ops).write ∧
      (Bspsc.run size ops).write - (Bspsc.run size ops).read
        ≤ Bspsc.Cap (Bspsc.run size ops)) ∧
    ((Dspsc.run size ops).read ≤ (Dspsc.run size ops).write ∧
      (Dspsc.run size ops).write - (Dspsc.run size ops).read
        ≤ Dspsc.Cap (Dspsc.run size ops)) ∧
    ((Mpmc.run size ops).read ≤ (Mpmc.run size ops).write ∧
      (Mpmc.run size ops).write - (Mpmc.run size ops).read
        ≤ Mpmc.Cap (Mpmc.run size ops)) := by
  refine ⟨?_, ?_, ?_, ?_⟩
  · rcases Spsc.Inv_run (α := α) size ops with ⟨-, hr, hw⟩ |
      ⟨k, -, hlen, -, hrw, hwc⟩
    · rw [hr, hw]
      exact ⟨le_rfl, Nat.zero_le _⟩
    · unfold Spsc.Cap
      omega
  · obtain ⟨h1, h2, h3, h4⟩ := Bspsc.bspsc_Inv_run (α := α) size ops
    unfold Bspsc.Cap
    omega
  · rcases Dspsc.dspsc_Inv_run (α := α) size ops with ⟨-, hr, hw⟩ |
      ⟨k, -, hlen, -, hrw, hwc, -⟩
    · rw [hr, hw]
      exact ⟨le_rfl, Nat.zero_le _⟩
    · unfold Dspsc.Cap
      omega
  · rcases Mpmc.mpmc_Inv_run (α := α) size hsz ops with ⟨-, hr, hw⟩ |
      ⟨k, -, -, hlen, -, hrw, hwc, -, -⟩
    · rw [hr, hw]
      exact ⟨le_rfl, Nat.zero_le _⟩
    · unfold Mpmc.Cap
      omega

/-- C8, witness: the invariant at the concrete history consisting of a
put followed by a get, on rings of size 4 in all four variants. -/
theorem C8_witness :
    ((Spsc.run (α := Nat) 4 [.put (some 1), .get]).read
        ≤ (Spsc.run (α := Nat) 4 [.put (some 1), .get]).write ∧
      (Spsc.run (α := Nat) 4 [.put (some 1), .get]).write
          - (Spsc.run (α := Nat) 4 [.put (some 1), .get]).read
        ≤ Spsc.Cap (Spsc.run (α := Nat) 4 [.put (some 1), .get])) ∧
    ((Bspsc.run (α := Nat) 4 [.put (some 1), .get]).read
        ≤ (Bspsc.run (α := Nat) 4 [.put (some 1), .get]).write ∧
      (Bspsc.run (α := Nat) 4 [.put (some 1), .get]).write
          - (Bspsc.run (α := Nat) 4 [.put (some 1), .get]).read
        ≤ Bspsc.Cap (Bspsc.run (α := Nat) 4 [.put (some 1), .get])) ∧
    ((Dspsc.run (α := Nat) 4 [.put (some 1), .get]).read
        ≤ (Dspsc.run (α := Nat) 4 [.put (some 1), .get]).write ∧
      (Dspsc.run (α := Nat) 4 [.put (some 1), .get]).write
          - (Dspsc.run (α := Nat) 4 [.put (some 1), .get]).read
        ≤ Dspsc.Cap (Dspsc.run (α := Nat) 4 [.put (some 1), .get])) ∧
    ((Mpmc.run (α := Nat) 4 [.put (some 1), .get]).read
        ≤ (Mpmc.run (α := Nat) 4 [.put (some 1), .get]).write ∧
      (Mpmc.run (α := Nat) 4 [.put (some 1), .get]).write
          - (Mpmc.run (α := Nat) 4 [.put (some 1), .get]).read
        ≤ Mpmc.Cap (Mpmc.run (α := Nat) 4 [.put (some 1), .get])) :=
  C8_invariant Nat 4 (by decide) [.put (some 1), .get]

/-- C9: BSPSC's batch threshold defaults to 255 (`(1 << 8) - 1`); a
successful `Put` advances only the private `writeCache` and publishes it
into the shared `write` exactly when the unpublished batch has reached
`maxbatch` (dually for `Poll` with `readCache`/`read`); concretely,
after five `Put`s on a fresh ring of capacity 8 the shared `write` is
still 0 while `writeCache` is 5, so a consumer `Poll` times out without
ever observing the five enqueued items. -/
theorem C9_batched_publication (α : Type) :
    Bspsc.defaultMaxBatch = 255 ∧
    (∀ size : Nat, (Bspsc.NewRingBuffer (α := α) size).maxbatch = 255) ∧
    (∀ (rb : Bspsc.RingBuffer α) (item : Option α),
      (Bspsc.put rb item false).1 = .accepted →
      (Bspsc.put rb item false).2.writeCache = rb.writeCache + 1 ∧
      (rb.writeCache + 1 - rb.write < rb.maxbatch →
        (Bspsc.put rb item false).2.write = rb.write) ∧
      ((Bspsc.put rb item false).2.write ≠ rb.write →
        (Bspsc.put rb item false).2.write = rb.writeCache + 1 ∧
        rb.maxbatch ≤ rb.writeCache + 1 - rb.write)) ∧
    (∀ (rb : Bspsc.RingBuffer α) (t : Int) (e : Bool) (a : Option α),
      (Bspsc.Poll rb t e).1 = .got a →
      (Bspsc.Poll rb t e).2.readCache = rb.readCache + 1 ∧
      (rb.readCache + 1 - rb.read < rb.maxbatch →
        (Bspsc.Poll rb t e).2.read = rb.read) ∧
      ((Bspsc.Poll rb t e).2.read ≠ rb.read →
        (Bspsc.Poll rb t e).2.read = rb.readCache + 1 ∧
        rb.maxbatch ≤ rb.readCache + 1 - rb.read)) ∧
    ((Bspsc.run (α := Nat) 8 [.put (some 1), .put (some 2), .put (some 3),
        .put (some 4), .put (some 5)]).write = 0 ∧
      (Bspsc.run (α := Nat) 8 [.put (some 1), .put (some 2), .put (some 3),
        .put (some 4), .put (some 5)]).writeCache = 5 ∧
      (Bspsc.Poll (Bspsc.run (α := Nat) 8 [.put (some 1), .put (some 2),
        .put (some 3), .put (some 4), .put (some 5)]) 1 true).1
        = .timedOut) := by
  refine ⟨by decide, fun size => rfl, ?_, ?_, by decide, by decide, by decide⟩
  · intro rb item h
    by_cases hd : rb.disposed > 0
    · simp [Bspsc.put, hd] at h
    · by_cases hfull : rb.writeCache < rb.read + Bspsc.Cap rb
      · rcases hget : rb.nodes[rb.writeCache &&& rb.mask]? with _ | n
        · simp [Bspsc.put, hd, hfull, hget] at h
        · by_cases hb : rb.writeCache + 1 - rb.write ≥ rb.maxbatch
          · have hput : Bspsc.put rb item false
                = (.accepted,
                  { rb with
                    nodes := rb.nodes.set (rb.writeCache &&& rb.mask)
                      { n with data := item },
                    writeCache := rb.writeCache + 1,
                    write := rb.writeCache + 1 }) := by
              simp only [Bspsc.put, List.get?_eq_getElem?, hd, hfull, hget,
                hb, if_true, if_false, ite_true, ite_false]
            rw [hput]
            exact ⟨rfl, fun hx => absurd hb (by omega), fun _ => ⟨rfl, hb⟩⟩
          · have hput : Bspsc.put rb item false
                = (.accepted,
                  { rb with
                    nodes := rb.nodes.set (rb.writeCache &&& rb.mask)
                      { n with data := item },
                    writeCache := rb.writeCache + 1,
                    write := rb.write }) := by
              simp only [Bspsc.put, List.get?_eq_getElem?, hd, hfull, hget,
                hb, if_true, if_false, ite_true, ite_false]
            rw [hput]
            exact ⟨rfl, fun _ => rfl, fun hx => absurd rfl hx⟩
      · by_cases hpub : rb.writeCache > rb.write <;>
          simp [Bspsc.put, hd, hfull, hpub] at h
  · intro rb t e a h
    by_cases hd : rb.disposed > 0
    · simp [Bspsc.Poll, hd] at h
    · by_cases hne : rb.readCache = rb.write
      · by_cases hpub : rb.write > rb.read <;>
          by_cases ht : 0 < t ∧ e = true <;>
          simp [Bspsc.Poll, hd, hne, hpub, ht] at h
      · rcases hget : rb.nodes[rb.readCache &&& rb.mask]? with _ | n
        · simp [Bspsc.Poll, hd, hne, hget] at h
        · by_cases hb : rb.readCache + 1 - rb.read ≥ rb.maxbatch
          · have hpoll : Bspsc.Poll rb t e
                = (.got n.data,
                  { rb with
                    nodes := rb.nodes.set (rb.readCache &&& rb.mask)
                      { n with data := none },
                    readCache := rb.readCache + 1,
                    read := rb.readCache + 1 }) := by
              simp only [Bspsc.Poll, List.get?_eq_getElem?, hd, hne, hget,
                hb, if_true, if_false, ite_true, ite_false, ne_eq,
                not_false_eq_true]
            rw [hpoll]
            exact ⟨rfl, fun hx => absurd hb (by omega), fun _ => ⟨rfl, hb⟩⟩
          · have hpoll : Bspsc.Poll rb t e
                = (.got n.data,
                  { rb with
                    nodes := rb.nodes.set (rb.readCache &&& rb.mask)
                      { n with data := none },
                    readCache := rb.readCache + 1,
                    read := rb.read }) := by
              simp only [Bspsc.Poll, List.get?_eq_getElem?, hd, hne, hget,
                hb, if_true, if_false, ite_true, ite_false, ne_eq,
                not_false_eq_true]
            rw [hpoll]
            exact ⟨rfl, fun _ => rfl, fun hx => absurd rfl hx⟩

/-- C9, witness: the publication law applied at concrete rings — a `Put`
on a fresh capacity-8 ring leaves the shared `write` unchanged (batch
below the threshold), and a `Poll` on a published two-item ring leaves
the shared `read` unchanged. -/
theorem C9_witness :
    ((Bspsc.put (Bspsc.NewRingBuffer (α := Nat) 8) (some 1) false).2.writeCache
        = (Bspsc.NewRingBuffer (α := Nat) 8).writeCache + 1 ∧
      ((Bspsc.NewRingBuffer (α := Nat) 8).writeCache + 1
          - (Bspsc.NewRingBuffer (α := Nat) 8).write
          < (Bspsc.NewRingBuffer (α := Nat) 8).maxbatch →
        (Bspsc.put (Bspsc.NewRingBuffer (α := Nat) 8) (some 1) false).2.write
          = (Bspsc.NewRingBuffer (α := Nat) 8).write) ∧
      ((Bspsc.put (Bspsc.NewRingBuffer (α := Nat) 8) (some 1) false).2.write
          ≠ (Bspsc.NewRingBuffer (α := Nat) 8).write →
        (Bspsc.put (Bspsc.NewRingBuffer (α := Nat) 8) (some 1) false).2.write
          = (Bspsc.NewRingBuffer (α := Nat) 8).writeCache + 1 ∧
        (Bspsc.NewRingBuffer (α := Nat) 8).maxbatch
          ≤ (Bspsc.NewRingBuffer (α := Nat) 8).writeCache + 1
            - (Bspsc.NewRingBuffer (α := Nat) 8).write)) ∧
    ((Bspsc.Poll (Bspsc.run (α := Nat) 2
        [.put (some 1), .put (some 2), .offer (some 3)]) 0 false).2.readCache
        = (Bspsc.run (α := Nat) 2
        [.put (some 1), .put (some 2), .offer (some 3)]).readCache + 1 ∧
      ((Bspsc.run (α := Nat) 2
          [.put (some 1), .put (some 2), .offer (some 3)]).readCache + 1
          - (Bspsc.run (α := Nat) 2
          [.put (some 1), .put (some 2), .offer (some 3)]).read
          < (Bspsc.run (α := Nat) 2
          [.put (some 1), .put (some 2), .offer (some 3)]).maxbatch →
        (Bspsc.Poll (Bspsc.run (α := Nat) 2
          [.put (some 1), .put (some 2), .offer (some 3)]) 0 false).2.read
          = (Bspsc.run (α := Nat) 2
          [.put (some 1), .put (some 2), .offer (some 3)]).read) ∧
      ((Bspsc.Poll (Bspsc.run (α := Nat) 2
          [.put (some 1), .put (some 2), .offer (some 3)]) 0 false).2.read
          ≠ (Bspsc.run (α := Nat) 2
          [.put (some 1), .put (some 2), .offer (some 3)]).read →
        (Bspsc.Poll (Bspsc.run (α := Nat) 2
          [.put (some 1), .put (some 2), .offer (some 3)]) 0 false).2.read
          = (Bspsc.run (α := Nat) 2
          [.put (some 1), .put (some 2), .offer (some 3)]).readCache + 1 ∧
        (Bspsc.run (α := Nat) 2
          [.put (some 1), .put (some 2), .offer (some 3)]).maxbatch
          ≤ (Bspsc.run (α := Nat) 2
          [.put (some 1), .put (some 2), .offer (some 3)]).readCache + 1
            - (Bspsc.run (α := Nat) 2
            [.put (some 1), .put (some 2), .offer (some 3)]).read)) :=
  ⟨(C9_batched_publication Nat).2.2.1 (Bspsc.NewRingBuffer 8) (some 1)
      (by decide),
    (C9_batched_publication Nat).2.2.2.1 (Bspsc.run 2
      [.put (some 1), .put (some 2), .offer (some 3)]) 0 false (some 1)
      (by decide)⟩

/-- C10: constructing a DSPSC ring with size 0 wraps `roundUp(0)` to 0,
so the ring has an empty slot array, `mask = 2^64 - 1` and capacity 0,
and every `Put`, `Offer`, `Get` or `Poll` faults with an out-of-bounds
slot access at function entry: no index into the empty array is valid. -/
theorem C10_size_zero :
    roundUp 0 = 0 ∧
    (Dspsc.NewRingBuffer (α := Nat) 0).nodes = [] ∧
    (Dspsc.NewRingBuffer (α := Nat) 0).mask = 2 ^ 64 - 1 ∧
    Dspsc.Cap (Dspsc.NewRingBuffer (α := Nat) 0) = 0 ∧
    (∀ idx, (Dspsc.NewRingBuffer (α := Nat) 0).nodes.get? idx = none) ∧
    (∀ (item : Option Nat) (off : Bool),
      (Dspsc.put (Dspsc.NewRingBuffer (α := Nat) 0) item off).1 = .oob) ∧
    (∀ (t : Int) (e : Bool),
      (Dspsc.Poll (Dspsc.NewRingBuffer (α := Nat) 0) t e).1 = .oob) := by
  have hnil : (Dspsc.NewRingBuffer (α := Nat) 0).nodes = [] := by decide
  refine ⟨by decide, hnil, by decide, by decide, ?_, ?_, ?_⟩
  · intro idx
    rw [hnil]
    simp
  · intro item off
    simp [Dspsc.put, hnil]
  · intro t e
    simp [Dspsc.Poll, hnil]
